import Mathlib

/-!
# Verification of the semantic steganographic encoder

A shallow embedding, over `List Char` and `List`-based finite maps, of

* `src/backup/steganography.py` — the `SteganographyLLM` class: `preprocess`,
  `train` (vocabulary construction), `get_candidates`, the beam-search
  `encode`, and `decode`;
* `src/scripts/data_builder.py` — the incremental bigram/trigram model
  builders: chunked n-gram aggregation with cross-chunk carries, the
  frequency-sorted vocabulary (`Counter.most_common`), and the
  prune/group/sort/truncate transition compactor (shared by
  `src/backup/data_builder.py`, whose `build_model` has the same
  per-context compaction).

Python `dict` / `Counter` values are modelled as association lists in
insertion order (Python dicts preserve insertion order); `sorted(...)` /
`list.sort` with `reverse=True` is modelled by a stable insertion sort;
`float` scores are modelled by `Int` (no settled claim depends on the
numeric value of a log-probability, only on comparisons, sums and the
fixed `-20.0` fallback penalty); strings are `List Char` restricted to
their ASCII behaviour (`str.isalpha`, `str.lower`, the regex classes
`[a-z]`, `[a-zA-Z]`, `\s`).
-/

namespace StegSpec

/-! ## Character-level helpers (ASCII fragment of Python's str methods) -/

/-- Python's `\s` on ASCII: space, tab, newline, carriage return,
vertical tab, form feed. -/
def isPySpace (c : Char) : Bool :=
  c = ' ' || c = '\t' || c = '\n' || c = '\r' || c.toNat = 11 || c.toNat = 12

/-- The regex class `[a-zA-Z]` (and `str.isalpha` on ASCII input). -/
def isAsciiAlpha (c : Char) : Bool :=
  ('a' ≤ c && c ≤ 'z') || ('A' ≤ c && c ≤ 'Z')

/-- The regex class `[a-z]`. -/
def isLowerAZ (c : Char) : Bool :=
  'a' ≤ c && c ≤ 'z'

theorem charToNat_ofNat {n : Nat} (h : n.isValidChar) : (Char.ofNat n).toNat = n := by
  unfold Char.ofNat
  rw [dif_pos h]
  rfl

theorem charLe_iff_toNat {a b : Char} : a ≤ b ↔ a.toNat ≤ b.toNat := by
  rw [Char.le_def, UInt32.le_def, BitVec.le_def]
  exact Iff.rfl

theorem charEq_iff_toNat {a b : Char} : a = b ↔ a.toNat = b.toNat := by
  constructor
  · intro h
    rw [h]
  · intro h
    have ha := Char.ofNat_toNat a
    rw [← ha, h, Char.ofNat_toNat]

theorem toLower_of_lower {c : Char} (h1 : 'a' ≤ c) : c.toLower = c := by
  have h1n : 97 ≤ c.toNat := by simpa [Char.le_def, Char.toNat] using h1
  unfold Char.toLower
  rw [if_neg]
  omega

theorem toLower_space : Char.toLower ' ' = ' ' := by decide

theorem toUpper_toNat_of_lower {c : Char} (h1 : 'a' ≤ c) (h2 : c ≤ 'z') :
    c.toUpper.toNat = c.toNat - 32 := by
  have h1n : 97 ≤ c.toNat := charLe_iff_toNat.mp h1
  have h2n : c.toNat ≤ 122 := charLe_iff_toNat.mp h2
  unfold Char.toUpper
  rw [if_pos (by omega)]
  exact charToNat_ofNat (Or.inl (by omega))

theorem toUpper_toLower_of_lower {c : Char} (h1 : 'a' ≤ c) (h2 : c ≤ 'z') :
    c.toUpper.toLower = c := by
  have h1n : 97 ≤ c.toNat := charLe_iff_toNat.mp h1
  have h2n : c.toNat ≤ 122 := charLe_iff_toNat.mp h2
  have ht : c.toUpper.toNat = c.toNat - 32 := toUpper_toNat_of_lower h1 h2
  unfold Char.toLower
  rw [if_pos (by omega), ht]
  have : c.toNat - 32 + 32 = c.toNat := by omega
  rw [this]
  exact Char.ofNat_toNat c

theorem isAsciiAlpha_toUpper_of_lower {c : Char} (h1 : 'a' ≤ c) (h2 : c ≤ 'z') :
    isAsciiAlpha c.toUpper = true := by
  have h1n : 97 ≤ c.toNat := charLe_iff_toNat.mp h1
  have h2n : c.toNat ≤ 122 := charLe_iff_toNat.mp h2
  have ht : c.toUpper.toNat = c.toNat - 32 := toUpper_toNat_of_lower h1 h2
  have hA : ('A' : Char).toNat = 65 := rfl
  have hZ : ('Z' : Char).toNat = 90 := rfl
  unfold isAsciiAlpha
  simp only [charLe_iff_toNat, ht, hA, hZ, Bool.or_eq_true, Bool.and_eq_true,
    decide_eq_true_eq]
  right
  omega

theorem isAsciiAlpha_of_lower {c : Char} (h1 : 'a' ≤ c) (h2 : c ≤ 'z') :
    isAsciiAlpha c = true := by
  unfold isAsciiAlpha
  rw [Bool.or_eq_true, Bool.and_eq_true]
  left
  exact ⟨decide_eq_true h1, decide_eq_true h2⟩

theorem isPySpace_eq_false {c : Char} (h : 33 ≤ c.toNat) : isPySpace c = false := by
  have hsp : (' ' : Char).toNat = 32 := rfl
  have htb : ('\t' : Char).toNat = 9 := rfl
  have hnl : ('\n' : Char).toNat = 10 := rfl
  have hcr : ('\r' : Char).toNat = 13 := rfl
  unfold isPySpace
  simp only [charEq_iff_toNat, hsp, htb, hnl, hcr, Bool.or_eq_false_iff,
    decide_eq_false_iff_not]
  omega

theorem not_space_of_lower {c : Char} (h1 : 'a' ≤ c) : isPySpace c = false := by
  have h1n : 97 ≤ c.toNat := charLe_iff_toNat.mp h1
  exact isPySpace_eq_false (by omega)

theorem not_space_toUpper_of_lower {c : Char} (h1 : 'a' ≤ c) (h2 : c ≤ 'z') :
    isPySpace c.toUpper = false := by
  have h1n : 97 ≤ c.toNat := charLe_iff_toNat.mp h1
  have h2n : c.toNat ≤ 122 := charLe_iff_toNat.mp h2
  have ht : c.toUpper.toNat = c.toNat - 32 := toUpper_toNat_of_lower h1 h2
  exact isPySpace_eq_false (by omega)

/-! ## List utilities

`splitWs` models Python's `str.split()` (split on whitespace runs,
discarding empty fields); `joinWords` models Python's `" ".join(...)`;
`capitalizeL` models `str.capitalize()` (first character uppercased,
the rest lowercased); `sortWith` is a stable insertion sort modelling
Python's stable `sorted`. -/

def splitWsAux : List Char → List Char → List (List Char)
  | [], acc => if acc.isEmpty then [] else [acc.reverse]
  | c :: cs, acc =>
    if isPySpace c then
      if acc.isEmpty then splitWsAux cs [] else acc.reverse :: splitWsAux cs []
    else splitWsAux cs (c :: acc)

def splitWs (s : List Char) : List (List Char) :=
  splitWsAux s []

def joinWords : List (List Char) → List Char
  | [] => []
  | [w] => w
  | w :: w2 :: ws => w ++ ' ' :: joinWords (w2 :: ws)

def capitalizeL : List Char → List Char
  | [] => []
  | c :: cs => c.toUpper :: cs.map Char.toLower

/-- Stable insertion: `x` is placed before the first element `y` with
`r x y`; with `r x y := key y < key x` this realises Python's stable
descending `sorted(..., key=key, reverse=True)`. -/
def insertWith (r : α → α → Bool) (x : α) : List α → List α
  | [] => [x]
  | y :: ys => if r x y then x :: y :: ys else y :: insertWith r x ys

def sortWith (r : α → α → Bool) (l : List α) : List α :=
  l.foldl (fun acc x => insertWith r x acc) []

/-- Stable sort by a key, descending (Python `sorted(key=key, reverse=True)`). -/
def sortDescBy [LinearOrder β] (key : α → β) (l : List α) : List α :=
  sortWith (fun x y => key y < key x) l

theorem perm_insertWith (r : α → α → Bool) (x : α) (l : List α) :
    List.Perm (insertWith r x l) (x :: l) := by
  induction l with
  | nil => exact List.Perm.refl _
  | cons y ys ih =>
    unfold insertWith
    by_cases h : r x y = true
    · rw [if_pos h]
    · rw [if_neg h]
      exact List.Perm.trans (List.Perm.cons y ih) (List.Perm.swap x y ys)

theorem perm_sortWith (r : α → α → Bool) (l : List α) :
    List.Perm (sortWith r l) l := by
  suffices h : ∀ acc : List α, List.Perm (l.foldl (fun acc x => insertWith r x acc) acc) (l.reverse ++ acc) by
    have := h []
    rw [List.append_nil] at this
    exact List.Perm.trans this (List.reverse_perm l)
  induction l with
  | nil => intro acc; exact List.Perm.refl _
  | cons y ys ih =>
    intro acc
    rw [List.foldl_cons]
    have h2 := ih (insertWith r y acc)
    have h3 : List.Perm (ys.reverse ++ insertWith r y acc) (ys.reverse ++ (y :: acc)) :=
      List.Perm.append_left _ (perm_insertWith r y acc)
    have h4 : (y :: ys).reverse ++ acc = ys.reverse ++ (y :: acc) := by
      rw [List.reverse_cons, List.append_assoc]
      rfl
    rw [h4]
    exact List.Perm.trans h2 h3

theorem mem_sortWith {r : α → α → Bool} {x : α} {l : List α} :
    x ∈ sortWith r l ↔ x ∈ l :=
  (perm_sortWith r l).mem_iff

theorem pairwise_insertWith {P : α → α → Prop} {r : α → α → Bool} {x : α} {l : List α}
    (hr1 : ∀ a b, r a b = true → P a b) (hr2 : ∀ a b, r a b = false → P b a)
    (htr : ∀ a b c, P a b → P b c → P a c)
    (h : List.Pairwise P l) : List.Pairwise P (insertWith r x l) := by
  induction l with
  | nil => exact List.pairwise_singleton P x
  | cons y ys ih =>
    unfold insertWith
    rcases List.pairwise_cons.mp h with ⟨hy, hys⟩
    by_cases hxy : r x y = true
    · rw [if_pos hxy]
      refine List.pairwise_cons.mpr ⟨?_, h⟩
      intro z hz
      rcases List.mem_cons.mp hz with hz | hz
      · rw [hz]; exact hr1 x y hxy
      · exact htr x y z (hr1 x y hxy) (hy z hz)
    · rw [if_neg hxy]
      refine List.pairwise_cons.mpr ⟨?_, ih hys⟩
      intro z hz
      have hz2 : z ∈ x :: ys := ((perm_insertWith r x ys).mem_iff).mp hz
      rcases List.mem_cons.mp hz2 with hz2 | hz2
      · rw [hz2]
        exact hr2 x y (Bool.eq_false_iff.mpr hxy)
      · exact hy z hz2

theorem pairwise_sortWith {P : α → α → Prop} {r : α → α → Bool}
    (hr1 : ∀ a b, r a b = true → P a b) (hr2 : ∀ a b, r a b = false → P b a)
    (htr : ∀ a b c, P a b → P b c → P a c)
    (l : List α) : List.Pairwise P (sortWith r l) := by
  suffices h : ∀ acc : List α, List.Pairwise P acc →
      List.Pairwise P (l.foldl (fun acc x => insertWith r x acc) acc) by
    exact h [] List.Pairwise.nil
  induction l with
  | nil => intro acc hacc; exact hacc
  | cons y ys ih =>
    intro acc hacc
    exact ih _ (pairwise_insertWith hr1 hr2 htr hacc)

theorem pairwise_sortDescBy [LinearOrder β] (key : α → β) (l : List α) :
    List.Pairwise (fun a b => key b ≤ key a) (sortDescBy key l) := by
  refine pairwise_sortWith ?_ ?_ ?_ l
  · intro a b h
    exact le_of_lt (by simpa using h)
  · intro a b h
    simpa using h
  · intro a b c h1 h2
    exact le_trans h2 h1

theorem mem_sortDescBy [LinearOrder β] {key : α → β} {x : α} {l : List α} :
    x ∈ sortDescBy key l ↔ x ∈ l :=
  mem_sortWith

/-- The head of a descending sort is a maximum of the list. -/
theorem head_sortDescBy_max [LinearOrder β] {key : α → β} {l : List α} {p : α} {t : List α}
    (h : sortDescBy key l = p :: t) : ∀ x ∈ l, key x ≤ key p := by
  intro x hx
  have hx2 : x ∈ p :: t := by
    rw [← h]
    exact mem_sortDescBy.mpr hx
  rcases List.mem_cons.mp hx2 with hx2 | hx2
  · rw [hx2]
  · have hp := pairwise_sortDescBy key l
    rw [h] at hp
    exact (List.pairwise_cons.mp hp).1 x hx2

/-! ## Adjacent windows

`pairs l` is the list of adjacent 2-windows of `l` in order (Python's
`for i in range(len(l)-1): (l[i], l[i+1])`); `triples` the 3-windows.
`lastOne`/`last2`/`takeLast2` extract the trailing tokens carried across
chunk boundaries. -/

def pairs {α : Type} : List α → List (α × α)
  | a :: b :: t => (a, b) :: pairs (b :: t)
  | _ => []

def triples {α : Type} : List α → List (α × α × α)
  | a :: b :: c :: t => (a, b, c) :: triples (b :: c :: t)
  | _ => []

def lastOne {α : Type} : List α → Option α
  | [] => none
  | [x] => some x
  | _ :: x :: t => lastOne (x :: t)

def last2 {α : Type} : List α → Option (α × α)
  | [] => none
  | [_] => none
  | [x, y] => some (x, y)
  | _ :: x :: y :: t => last2 (x :: y :: t)

def takeLast2 {α : Type} : List α → List α
  | [] => []
  | [x] => [x]
  | [x, y] => [x, y]
  | _ :: x :: y :: t => takeLast2 (x :: y :: t)

/-- The 2-windows straddling the boundary between `A` and `B`. -/
def bnd2 {α : Type} (A B : List α) : List (α × α) :=
  match lastOne A, B with
  | some x, y :: _ => [(x, y)]
  | _, _ => []

/-- The 3-windows straddling the boundary between `A` and `B`:
first the window with two tokens in `A`, then the one with one token in `A`. -/
def bnd3 {α : Type} (A B : List α) : List (α × α × α) :=
  (match last2 A, B with
   | some (x, y), z :: _ => [(x, y, z)]
   | _, _ => []) ++
  (match lastOne A, B with
   | some y, z :: w :: _ => [(y, z, w)]
   | _, _ => [])

theorem lastOne_cons_cons {α : Type} (a x : α) (t : List α) :
    lastOne (a :: x :: t) = lastOne (x :: t) := by
  cases t <;> rfl

theorem last2_cons_cons_cons {α : Type} (a x y : α) (t : List α) :
    last2 (a :: x :: y :: t) = last2 (x :: y :: t) := by
  cases t <;> rfl

theorem takeLast2_cons_cons_cons {α : Type} (a x y : α) (t : List α) :
    takeLast2 (a :: x :: y :: t) = takeLast2 (x :: y :: t) := by
  cases t <;> rfl

theorem lastOne_takeLast2 {α : Type} (l : List α) :
    lastOne (takeLast2 l) = lastOne l := by
  induction l with
  | nil => rfl
  | cons a t ih =>
    match t with
    | [] => rfl
    | [x] => rfl
    | x :: y :: t2 =>
      rw [takeLast2_cons_cons_cons, lastOne_cons_cons]
      exact ih

theorem last2_takeLast2 {α : Type} (l : List α) :
    last2 (takeLast2 l) = last2 l := by
  induction l with
  | nil => rfl
  | cons a t ih =>
    match t with
    | [] => rfl
    | [x] => rfl
    | x :: y :: t2 =>
      rw [takeLast2_cons_cons_cons, last2_cons_cons_cons]
      exact ih

theorem pairs_append {α : Type} (A B : List α) :
    pairs (A ++ B) = pairs A ++ bnd2 A B ++ pairs B := by
  induction A with
  | nil =>
    cases B <;> rfl
  | cons a A ih =>
    match A with
    | [] =>
      cases B <;> rfl
    | x :: A2 =>
      have h1 : pairs ((a :: x :: A2) ++ B) = (a, x) :: pairs ((x :: A2) ++ B) := rfl
      have h2 : pairs (a :: x :: A2) = (a, x) :: pairs (x :: A2) := rfl
      have h3 : bnd2 (a :: x :: A2) B = bnd2 (x :: A2) B := by
        unfold bnd2
        rw [lastOne_cons_cons]
      rw [h1, ih, h2, h3]
      rfl

theorem triples_append {α : Type} (A B : List α) :
    triples (A ++ B) = triples A ++ bnd3 A B ++ triples B := by
  induction A with
  | nil =>
    match B with
    | [] => rfl
    | [z] => rfl
    | z :: w :: B2 => rfl
  | cons a A ih =>
    match A with
    | [] =>
      match B with
      | [] => rfl
      | [z] => rfl
      | z :: w :: B2 => rfl
    | [x] =>
      match B with
      | [] => rfl
      | [z] => rfl
      | z :: w :: B2 => rfl
    | x :: y :: A2 =>
      have h1 : triples ((a :: x :: y :: A2) ++ B) = (a, x, y) :: triples ((x :: y :: A2) ++ B) := rfl
      have h2 : triples (a :: x :: y :: A2) = (a, x, y) :: triples (x :: y :: A2) := rfl
      have h3 : bnd3 (a :: x :: y :: A2) B = bnd3 (x :: y :: A2) B := by
        unfold bnd3
        rw [lastOne_cons_cons, last2_cons_cons_cons]
      rw [h1, ih, h2, h3]
      rfl

theorem fst_mem_of_mem_pairs {α : Type} {x y : α} {l : List α} (h : (x, y) ∈ pairs l) :
    x ∈ l ∧ y ∈ l := by
  induction l with
  | nil => cases h
  | cons a t ih =>
    match t with
    | [] => cases h
    | b :: t2 =>
      have h2 : pairs (a :: b :: t2) = (a, b) :: pairs (b :: t2) := rfl
      rw [h2] at h
      rcases List.mem_cons.mp h with h | h
      · have hx : x = a := congrArg Prod.fst h
        have hy : y = b := congrArg Prod.snd h
        constructor
        · rw [hx]; exact List.mem_cons_self a _
        · rw [hy]; exact List.mem_cons_of_mem a (List.mem_cons_self b _)
      · rcases ih h with ⟨hx, hy⟩
        exact ⟨List.mem_cons_of_mem a hx, List.mem_cons_of_mem a hy⟩

theorem mem_of_mem_triples {α : Type} {x y z : α} {l : List α}
    (h : (x, y, z) ∈ triples l) : x ∈ l ∧ y ∈ l ∧ z ∈ l := by
  induction l with
  | nil => cases h
  | cons a t ih =>
    match t with
    | [] => cases h
    | [b] => cases h
    | b :: c :: t2 =>
      have h2 : triples (a :: b :: c :: t2) = (a, b, c) :: triples (b :: c :: t2) := rfl
      rw [h2] at h
      rcases List.mem_cons.mp h with h | h
      · have hx : x = a := congrArg Prod.fst h
        have hy : y = b := congrArg (fun q => q.2.1) h
        have hz : z = c := congrArg (fun q => q.2.2) h
        refine ⟨?_, ?_, ?_⟩
        · rw [hx]; exact List.mem_cons_self a _
        · rw [hy]; exact List.mem_cons_of_mem a (List.mem_cons_self b _)
        · rw [hz]
          exact List.mem_cons_of_mem a (List.mem_cons_of_mem b (List.mem_cons_self c _))
      · rcases ih h with ⟨hx, hy, hz⟩
        exact ⟨List.mem_cons_of_mem a hx, List.mem_cons_of_mem a hy, List.mem_cons_of_mem a hz⟩

/-! ## Chunked n-gram emission (`build_model_incremental`,
`build_trigram_model_incremental` in `src/scripts/data_builder.py`)

Per chunk the code first counts all windows inside the chunk, then the
boundary-crossing windows built from the carried trailing token(s) of the
previous chunks, then updates the carry.  `chunkPairs`/`chunkTriples`
list the counted windows in exactly that emission order. -/

def optList {α : Type} : Option α → List α
  | none => []
  | some x => [x]

/-- `prev_token` update: the last token of the chunk if it is nonempty. -/
def updPrev {α : Type} (prev : Option α) (c : List α) : Option α :=
  match lastOne c with
  | some x => some x
  | none => prev

def chunkPairs {α : Type} (prev : Option α) : List (List α) → List (α × α)
  | [] => []
  | c :: cs => pairs c ++ bnd2 (optList prev) c ++ chunkPairs (updPrev prev c) cs

/-- `prev_prev_token`/`prev_token` update of the trigram aggregator:
last two of the chunk if it has ≥ 2 tokens; shifted by one if it has 1;
unchanged if empty.  On carries of length ≤ 2 this is `takeLast2 (carry ++ c)`. -/
def chunkTriples {α : Type} (carry : List α) : List (List α) → List (α × α × α)
  | [] => []
  | c :: cs => triples c ++ bnd3 carry c ++ chunkTriples (takeLast2 (carry ++ c)) cs

theorem pairs_of_short {α : Type} {l : List α} (h : l.length ≤ 1) : pairs l = [] := by
  match l with
  | [] => rfl
  | [x] => rfl
  | x :: y :: t => simp at h

theorem triples_of_short {α : Type} {l : List α} (h : l.length ≤ 2) : triples l = [] := by
  match l with
  | [] => rfl
  | [x] => rfl
  | [x, y] => rfl
  | x :: y :: z :: t => simp at h

theorem takeLast2_length {α : Type} (l : List α) : (takeLast2 l).length ≤ 2 := by
  induction l with
  | nil => simp [takeLast2]
  | cons a t ih =>
    match t with
    | [] => simp [takeLast2]
    | [x] => simp [takeLast2]
    | x :: y :: t2 =>
      rw [takeLast2_cons_cons_cons]
      exact ih

theorem lastOne_append_cons {α : Type} (A : List α) (b : α) (B : List α) :
    lastOne (A ++ b :: B) = lastOne (b :: B) := by
  induction A with
  | nil => rfl
  | cons a A ih =>
    match A with
    | [] => exact lastOne_cons_cons a b B
    | a2 :: A2 =>
      have h : (a :: a2 :: A2) ++ b :: B = a :: a2 :: (A2 ++ b :: B) := rfl
      rw [h, lastOne_cons_cons]
      exact ih

theorem last2_append_cons_cons {α : Type} (A : List α) (b c : α) (B : List α) :
    last2 (A ++ b :: c :: B) = last2 (b :: c :: B) := by
  induction A with
  | nil => rfl
  | cons a A ih =>
    match A with
    | [] => exact last2_cons_cons_cons a b c B
    | a2 :: A2 =>
      have h : (a :: a2 :: A2) ++ b :: c :: B = a :: a2 :: (A2 ++ b :: c :: B) := rfl
      rw [h]
      match h3 : A2 ++ b :: c :: B with
      | [] =>
        have := congrArg List.length h3
        simp at this
      | [x] =>
        have := congrArg List.length h3
        simp at this
        omega
      | x :: y :: t =>
        rw [last2_cons_cons_cons, last2_cons_cons_cons]
        rw [List.cons_append, h3, last2_cons_cons_cons] at ih
        exact ih

theorem bnd2_congr {α : Type} {A A2 : List α} (B : List α)
    (h : lastOne A = lastOne A2) : bnd2 A B = bnd2 A2 B := by
  unfold bnd2
  rw [h]

theorem bnd3_congr {α : Type} {A A2 : List α} (B : List α)
    (h1 : lastOne A = lastOne A2) (h2 : last2 A = last2 A2) :
    bnd3 A B = bnd3 A2 B := by
  unfold bnd3
  rw [h1, h2]

theorem lastOne_cons_isSome {α : Type} (x : α) (t : List α) :
    ∃ y, lastOne (x :: t) = some y := by
  induction t generalizing x with
  | nil => exact ⟨x, rfl⟩
  | cons b t2 ih =>
    rw [lastOne_cons_cons]
    exact ih b

theorem lastOne_optList_updPrev {α : Type} (prev : Option α) (c : List α) :
    lastOne (optList (updPrev prev c)) = lastOne (optList prev ++ c) := by
  match c with
  | [] =>
    have h : updPrev prev ([] : List α) = prev := rfl
    rw [h, List.append_nil]
  | x :: t =>
    rw [lastOne_append_cons]
    rcases lastOne_cons_isSome x t with ⟨y, hy⟩
    have h : updPrev prev (x :: t) = some y := by
      unfold updPrev
      rw [hy]
    rw [h, hy]
    rfl

theorem optList_short {α : Type} (prev : Option α) : (optList prev).length ≤ 1 := by
  cases prev <;> simp [optList]

theorem chunkPairs_perm {α : Type} (prev : Option α) (cs : List (List α)) :
    List.Perm (chunkPairs prev cs) (pairs (optList prev ++ cs.flatten)) := by
  induction cs generalizing prev with
  | nil =>
    rw [List.flatten_nil, List.append_nil]
    have h : pairs (optList prev) = [] := pairs_of_short (optList_short prev)
    rw [h]
    exact List.Perm.refl _
  | cons c cs ih =>
    have hshort2 : (optList (updPrev prev c)).length ≤ 1 := optList_short _
    have h12 : List.Perm (chunkPairs (updPrev prev c) cs)
        (bnd2 (optList prev ++ c) cs.flatten ++ pairs cs.flatten) := by
      have h2 : pairs (optList (updPrev prev c) ++ cs.flatten) =
          bnd2 (optList prev ++ c) cs.flatten ++ pairs cs.flatten := by
        rw [pairs_append, pairs_of_short hshort2,
          bnd2_congr cs.flatten (lastOne_optList_updPrev prev c)]
        simp
      rw [← h2]
      exact ih (updPrev prev c)
    have hR : pairs (optList prev ++ (c :: cs).flatten) =
        (bnd2 (optList prev) c ++ pairs c) ++
          (bnd2 (optList prev ++ c) cs.flatten ++ pairs cs.flatten) := by
      rw [List.flatten_cons, ← List.append_assoc, pairs_append (optList prev ++ c) cs.flatten,
        pairs_append (optList prev) c, pairs_of_short (optList_short prev)]
      simp [List.append_assoc]
    rw [hR]
    have h3 : List.Perm
        (pairs c ++ bnd2 (optList prev) c ++ chunkPairs (updPrev prev c) cs)
        ((pairs c ++ bnd2 (optList prev) c) ++
          (bnd2 (optList prev ++ c) cs.flatten ++ pairs cs.flatten)) :=
      List.Perm.append_left _ h12
    exact h3.trans (List.Perm.append_right _ List.perm_append_comm)

theorem chunkTriples_perm {α : Type} (carry : List α) (cs : List (List α))
    (hc : carry.length ≤ 2) :
    List.Perm (chunkTriples carry cs) (triples (carry ++ cs.flatten)) := by
  induction cs generalizing carry with
  | nil =>
    rw [List.flatten_nil, List.append_nil]
    have h : triples carry = [] := triples_of_short hc
    rw [h]
    exact List.Perm.refl _
  | cons c cs ih =>
    have hshort2 : (takeLast2 (carry ++ c)).length ≤ 2 := takeLast2_length _
    have h12 : List.Perm (chunkTriples (takeLast2 (carry ++ c)) cs)
        (bnd3 (carry ++ c) cs.flatten ++ triples cs.flatten) := by
      have h2 : triples (takeLast2 (carry ++ c) ++ cs.flatten) =
          bnd3 (carry ++ c) cs.flatten ++ triples cs.flatten := by
        rw [triples_append, triples_of_short hshort2,
          bnd3_congr cs.flatten (lastOne_takeLast2 (carry ++ c)) (last2_takeLast2 (carry ++ c))]
        simp
      rw [← h2]
      exact ih _ hshort2
    have hR : triples (carry ++ (c :: cs).flatten) =
        (bnd3 carry c ++ triples c) ++
          (bnd3 (carry ++ c) cs.flatten ++ triples cs.flatten) := by
      rw [List.flatten_cons, ← List.append_assoc, triples_append (carry ++ c) cs.flatten,
        triples_append carry c, triples_of_short hc]
      simp [List.append_assoc]
    rw [hR]
    have h3 : List.Perm
        (triples c ++ bnd3 carry c ++ chunkTriples (takeLast2 (carry ++ c)) cs)
        ((triples c ++ bnd3 carry c) ++
          (bnd3 (carry ++ c) cs.flatten ++ triples cs.flatten)) :=
      List.Perm.append_left _ h12
    exact h3.trans (List.Perm.append_right _ List.perm_append_comm)

/-! ## The run-time model and encoder (`src/backup/steganography.py`)

`SteganographyLLM` holds `id_to_word` (here: the `vocab` list, index =
id), `transitions` (a nested dict `{cur_id: {next_char: {next_id:
score}}}`, flattened to an association list keyed by `(cur_id, char)` —
a key pair is present exactly when both dict levels are), and
`words_by_char` (ids of vocabulary words grouped by first letter).
Scores (`float` log-probabilities in Python) are modelled by `Int`. -/

structure StegModel where
  vocab : List (List Char)
  transitions : List ((Nat × Char) × List (Nat × Int))
  wordsByChar : List (Char × List Nat)

/-- First match in an association list (Python dict lookup; keys of the
modelled dicts are distinct). -/
def alookup {κ β : Type} [DecidableEq κ] (k : κ) : List (κ × β) → Option β
  | [] => none
  | e :: rest => if e.1 = k then some e.2 else alookup k rest

def wordAt (m : StegModel) (i : Nat) : List Char :=
  m.vocab.getD i []

/-- `penalty_score = -20.0` in `get_candidates`. -/
def penaltyScore : Int := -20

/-- `SteganographyLLM.get_candidates`: the bigram transition bucket for
`(current_word_id, target_char)` if present (and nonempty), otherwise up
to 10 vocabulary words starting with `target_char`, each with the fixed
penalty score. -/
def getCandidates (m : StegModel) (cur : Nat) (c : Char) : List (Nat × Int) :=
  let cands := (alookup (cur, c) m.transitions).getD []
  if cands.isEmpty then
    (((alookup c m.wordsByChar).getD []).take 10).map (fun i => (i, penaltyScore))
  else
    cands

/-- `path['sequence'][-1]` (beam paths are always nonempty). -/
def lastD (p : List Nat) : Nat :=
  (lastOne p).getD 0

/-- One beam expansion step: every live path extended by every candidate
for the target character, in path order then candidate order. -/
def expandBeam (m : StegModel) (beam : List (List Nat × Int)) (c : Char) :
    List (List Nat × Int) :=
  (beam.map (fun p =>
    (getCandidates m (lastD p.1) c).map (fun q => (p.1 ++ [q.1], p.2 + q.2)))).flatten

/-- `sorted(new_beam, key=score, reverse=True)[:beam_width]`. -/
def pruneBeam (bw : Nat) (l : List (List Nat × Int)) : List (List Nat × Int) :=
  (sortDescBy (fun p => p.2) l).take bw

/-- The loop over `target_chars[1:]` of `encode`: returns the final beam
and the number of loop characters successfully consumed before a dead
end (`if not new_beam: break`). -/
def runBeam (m : StegModel) (bw : Nat) : List Char → List (List Nat × Int) →
    List (List Nat × Int) × Nat
  | [], beam => (beam, 0)
  | c :: rest, beam =>
    let nb := expandBeam m beam c
    if nb.isEmpty then (beam, 0)
    else
      let r := runBeam m bw rest (pruneBeam bw nb)
      (r.1, r.2 + 1)

/-- `target_chars = [c.lower() for c in hidden_text if c.isalpha()]`. -/
def targetChars (text : List Char) : List Char :=
  (text.filter isAsciiAlpha).map Char.toLower

/-- The initial beam: one zero-score path per vocabulary word starting
with the first target character, in `words_by_char` order. -/
def initBeam (m : StegModel) (c : Char) : List (List Nat × Int) :=
  ((alookup c m.wordsByChar).getD []).map (fun i => ([i], 0))

/-- `best_path = beam[0]` after the loop — the highest-scoring path, or
`none` when the beam is empty (in Python this is an uncaught
`IndexError`). -/
def encodeBest (m : StegModel) (hidden : List Char) (bw : Nat) :
    Option (List Nat × Int) :=
  match targetChars hidden with
  | [] => none
  | c :: rest => ((runBeam m bw rest (pruneBeam bw (initBeam m c))).1).head?

/-- `" ".join(words).capitalize() + "."`. -/
def renderL (m : StegModel) (seq : List Nat) : List Char :=
  capitalizeL (joinWords (seq.map (wordAt m))) ++ ['.']

/-- `SteganographyLLM.encode`.  `some []` is the early `return ""` on an
empty target sequence; `none` models the uncaught `IndexError` from
`beam[0]` on an empty final beam. -/
def encodeL (m : StegModel) (hidden : List Char) (bw : Nat) : Option (List Char) :=
  match targetChars hidden with
  | [] => some []
  | _ :: _ => (encodeBest m hidden bw).map (fun p => renderL m p.1)

/-- `SteganographyLLM.decode`: strip everything but letters and
whitespace, split into words, concatenate the lowercased first letters. -/
def decodeL (sentence : List Char) : List Char :=
  (splitWs (sentence.filter (fun c => isAsciiAlpha c || isPySpace c))).map
    (fun w => (w.headD ' ').toLower)

/-- String-level wrapper of `encode`. -/
def encode (m : StegModel) (hidden : String) (bw : Nat) : Option String :=
  (encodeL m hidden.data bw).map (fun l => String.mk l)

/-- String-level wrapper of `decode`. -/
def decode (s : String) : String :=
  String.mk (decodeL s.data)

/-- The letter-filtered, lowercased form of a message — the reference
value of the round-trip contract (identical to the `target_chars`
preprocessing of `encode`). -/
def filterLettersLowercase (s : String) : String :=
  String.mk (targetChars s.data)

/-- `SteganographyLLM.preprocess`: lowercase, drop every character
outside `[a-z\s]`, split on whitespace. -/
def preprocessTokens (text : List Char) : List (List Char) :=
  splitWs ((text.map Char.toLower).filter (fun c => isLowerAZ c || isPySpace c))

/-! ## Well-formedness of a model

Properties that every model produced by `SteganographyLLM.train` has:
each id listed in `words_by_char[ch]` names a nonempty all-lowercase
word whose first letter is `ch`; each candidate stored in
`transitions[cur][ch]` names a nonempty all-lowercase word whose first
letter is `ch`; and every character with a nonempty transition bucket
also has a nonempty `words_by_char` fallback pool (transition targets
are vocabulary words). -/

def wordOk (w : List Char) : Prop :=
  w ≠ [] ∧ ∀ c ∈ w, 'a' ≤ c ∧ c ≤ 'z'

def WFModel (m : StegModel) : Prop :=
  (∀ e ∈ m.wordsByChar, ∀ i ∈ e.2, wordOk (wordAt m i) ∧ (wordAt m i).headD ' ' = e.1) ∧
  (∀ e ∈ m.transitions, ∀ q ∈ e.2, wordOk (wordAt m q.1) ∧ (wordAt m q.1).headD ' ' = e.1.2) ∧
  (∀ e ∈ m.transitions, e.2 ≠ [] → (alookup e.1.2 m.wordsByChar).getD [] ≠ [])

theorem mem_of_alookup {κ β : Type} [DecidableEq κ] {k : κ} {l : List (κ × β)} {v : β}
    (h : alookup k l = some v) : (k, v) ∈ l := by
  induction l with
  | nil => cases h
  | cons e rest ih =>
    unfold alookup at h
    by_cases he : e.1 = k
    · rw [if_pos he] at h
      have hv : e.2 = v := Option.some_injective _ h
      have : e = (k, v) := by
        rw [Prod.ext_iff]
        exact ⟨he, hv⟩
      rw [← this]
      exact List.mem_cons_self e rest
    · rw [if_neg he] at h
      exact List.mem_cons_of_mem e (ih h)

/-- Every candidate produced by `get_candidates` names a nonempty
all-lowercase vocabulary word whose first letter is the target
character. -/
theorem getCandidates_sound {m : StegModel} (hwf : WFModel m) {cur : Nat} {c : Char}
    {q : Nat × Int} (h : q ∈ getCandidates m cur c) :
    wordOk (wordAt m q.1) ∧ (wordAt m q.1).headD ' ' = c := by
  unfold getCandidates at h
  by_cases hc : ((alookup (cur, c) m.transitions).getD []).isEmpty = true
  · rw [if_pos hc] at h
    rcases List.mem_map.mp h with ⟨i, hi, hq⟩
    have hi2 : i ∈ (alookup c m.wordsByChar).getD [] :=
      List.Sublist.mem hi (List.take_sublist 10 _)
    match hl : alookup c m.wordsByChar with
    | none =>
      rw [hl] at hi2
      cases hi2
    | some bucket =>
      rw [hl] at hi2
      have hmem : (c, bucket) ∈ m.wordsByChar := mem_of_alookup hl
      have := hwf.1 (c, bucket) hmem i hi2
      rw [← hq]
      exact this
  · rw [if_neg hc] at h
    match hl : alookup (cur, c) m.transitions with
    | none =>
      rw [hl] at hc
      simp at hc
    | some bucket =>
      rw [hl] at h
      have hmem : ((cur, c), bucket) ∈ m.transitions := mem_of_alookup hl
      exact hwf.2.1 ((cur, c), bucket) hmem q h

/-! ## Decoding a rendered sentence

`decode (" ".join(words).capitalize() + ".")` recovers the lowercased
first letters of the words, provided each word is a nonempty lowercase
token. -/

theorem splitWsAux_nil (acc : List Char) :
    splitWsAux [] acc = if acc.isEmpty then [] else [acc.reverse] := rfl

theorem splitWsAux_cons_nospace {c : Char} (h : isPySpace c = false)
    (cs acc : List Char) : splitWsAux (c :: cs) acc = splitWsAux cs (c :: acc) := by
  show (if isPySpace c then _ else splitWsAux cs (c :: acc)) = splitWsAux cs (c :: acc)
  rw [h]
  rfl

theorem splitWsAux_cons_space {c : Char} (h : isPySpace c = true) (cs acc : List Char) :
    splitWsAux (c :: cs) acc =
      if acc.isEmpty then splitWsAux cs [] else acc.reverse :: splitWsAux cs [] := by
  show (if isPySpace c then
      (if acc.isEmpty then splitWsAux cs [] else acc.reverse :: splitWsAux cs [])
    else _) = _
  rw [h]
  rfl

theorem isEmptyRev_false {w : List Char} (hne : w ≠ []) :
    (w.reverse ++ []).isEmpty = false := by
  rw [List.append_nil]
  match w with
  | [] => exact absurd rfl hne
  | c :: cs =>
    rw [List.reverse_cons]
    match h : cs.reverse ++ [c] with
    | [] =>
      have := congrArg List.length h
      simp at this
    | x :: t => rfl

theorem splitWsAux_word {w : List Char} (hw : ∀ c ∈ w, isPySpace c = false) :
    ∀ (t : List Char) (acc : List Char),
      splitWsAux (w ++ t) acc = splitWsAux t (w.reverse ++ acc) := by
  induction w with
  | nil => intro t acc; rfl
  | cons c cs ih =>
    intro t acc
    have hc : isPySpace c = false := hw c (List.mem_cons_self c cs)
    have hcs : ∀ x ∈ cs, isPySpace x = false :=
      fun x hx => hw x (List.mem_cons_of_mem c hx)
    have h1 : splitWsAux ((c :: cs) ++ t) acc = splitWsAux (cs ++ t) (c :: acc) :=
      splitWsAux_cons_nospace hc (cs ++ t) acc
    rw [h1, ih hcs t (c :: acc)]
    rw [List.reverse_cons, List.append_assoc]
    rfl

theorem splitWs_joinWords {ws : List (List Char)}
    (hws : ∀ w ∈ ws, w ≠ [] ∧ ∀ c ∈ w, isPySpace c = false) :
    splitWs (joinWords ws) = ws := by
  induction ws with
  | nil => rfl
  | cons w ws2 ih =>
    rcases hws w (List.mem_cons_self w ws2) with ⟨hne, hnosp⟩
    match ws2 with
    | [] =>
      show splitWsAux (joinWords [w]) [] = [w]
      have hj : joinWords [w] = w := rfl
      rw [hj]
      have h1 : splitWsAux (w ++ []) [] = splitWsAux [] (w.reverse ++ []) :=
        splitWsAux_word hnosp [] []
      rw [List.append_nil] at h1
      rw [h1, splitWsAux_nil, isEmptyRev_false hne]
      rw [List.append_nil, List.reverse_reverse]
      rfl
    | w2 :: ws3 =>
      have hj : joinWords (w :: w2 :: ws3) = w ++ ' ' :: joinWords (w2 :: ws3) := rfl
      show splitWsAux (joinWords (w :: w2 :: ws3)) [] = w :: w2 :: ws3
      rw [hj, splitWsAux_word hnosp (' ' :: joinWords (w2 :: ws3)) []]
      rw [splitWsAux_cons_space (by decide) _ _, isEmptyRev_false hne]
      rw [List.append_nil, List.reverse_reverse]
      have ih2 := ih (fun x hx => hws x (List.mem_cons_of_mem w hx))
      unfold splitWs at ih2
      rw [ih2]
      rfl

theorem joinWords_cons (c0 : Char) (cs0 : List Char) (rest : List (List Char)) :
    joinWords ((c0 :: cs0) :: rest) =
      c0 :: (cs0 ++ (match rest with | [] => [] | _ :: _ => ' ' :: joinWords rest)) := by
  match rest with
  | [] => simp [joinWords]
  | r :: rs => simp [joinWords]

theorem joinWords_chars {ws : List (List Char)} {c : Char} (h : c ∈ joinWords ws) :
    (∃ w ∈ ws, c ∈ w) ∨ c = ' ' := by
  induction ws with
  | nil => cases h
  | cons w ws2 ih =>
    match ws2 with
    | [] =>
      exact Or.inl ⟨w, List.mem_cons_self w [], h⟩
    | w2 :: ws3 =>
      have hj : joinWords (w :: w2 :: ws3) = w ++ ' ' :: joinWords (w2 :: ws3) := rfl
      rw [hj] at h
      rcases List.mem_append.mp h with h | h
      · exact Or.inl ⟨w, List.mem_cons_self w _, h⟩
      · rcases List.mem_cons.mp h with h | h
        · exact Or.inr h
        · rcases ih h with ⟨w3, hw3, hc⟩ | h
          · exact Or.inl ⟨w3, List.mem_cons_of_mem w hw3, hc⟩
          · exact Or.inr h

/-- Decoding `" ".join(words).capitalize() + "."` recovers the first
letters of the words, for nonempty all-lowercase words. -/
theorem decode_join_words {ws : List (List Char)} (hne : ws ≠ [])
    (hok : ∀ w ∈ ws, wordOk w) :
    decodeL (capitalizeL (joinWords ws) ++ ['.']) = ws.map (fun w => w.headD ' ') := by
  match ws with
  | [] => exact absurd rfl hne
  | w0 :: rest =>
    rcases hok w0 (List.mem_cons_self w0 rest) with ⟨hw0ne, hw0chars⟩
    match w0 with
    | [] => exact absurd rfl hw0ne
    | c0 :: cs0 =>
      have hc0 := hw0chars c0 (List.mem_cons_self c0 cs0)
      -- the trailing characters after the head of the sentence
      obtain ⟨tail, htail⟩ :
          ∃ t, (match rest with | [] => [] | _ :: _ => ' ' :: joinWords rest) = t :=
        ⟨_, rfl⟩
      have hjoin : joinWords ((c0 :: cs0) :: rest) = c0 :: (cs0 ++ tail) := by
        rw [joinWords_cons c0 cs0 rest, htail]
      -- every character after the head is a lowercase letter or a space
      have htail2 : ∀ c ∈ tail, ('a' ≤ c ∧ c ≤ 'z') ∨ c = ' ' := by
        rw [← htail]
        cases rest with
        | nil =>
          show ∀ c ∈ ([] : List Char), _
          intro c hc
          cases hc
        | cons r rs =>
          show ∀ c ∈ ' ' :: joinWords (r :: rs), _
          intro c hc
          rcases List.mem_cons.mp hc with hc | hc
          · exact Or.inr hc
          · rcases joinWords_chars hc with ⟨w2, hw2, hcw2⟩ | hc
            · exact Or.inl ((hok w2 (List.mem_cons_of_mem _ hw2)).2 c hcw2)
            · exact Or.inr hc
      have htailchars : ∀ c ∈ cs0 ++ tail, ('a' ≤ c ∧ c ≤ 'z') ∨ c = ' ' := by
        intro c hc
        rcases List.mem_append.mp hc with hc | hc
        · exact Or.inl (hw0chars c (List.mem_cons_of_mem c0 hc))
        · exact htail2 c hc
      -- `str.capitalize` leaves them unchanged
      have hcap : capitalizeL (joinWords ((c0 :: cs0) :: rest)) =
          c0.toUpper :: (cs0 ++ tail) := by
        rw [hjoin]
        show c0.toUpper :: (cs0 ++ tail).map Char.toLower = c0.toUpper :: (cs0 ++ tail)
        congr 1
        refine List.map_congr_left ?_ |>.trans (List.map_id _)
        intro c hc
        rcases htailchars c hc with ⟨h1, _⟩ | h1
        · exact toLower_of_lower h1
        · rw [h1]
          exact toLower_space
      -- the decoder's filter keeps every character except the final dot
      have hfilter : (c0.toUpper :: (cs0 ++ tail) ++ ['.']).filter
          (fun c => isAsciiAlpha c || isPySpace c) = c0.toUpper :: (cs0 ++ tail) := by
        rw [List.filter_append]
        have hdot : (['.'] : List Char).filter (fun c => isAsciiAlpha c || isPySpace c) = [] := by
          decide
        rw [hdot, List.append_nil]
        refine List.filter_eq_self.mpr ?_
        intro c hc
        rcases List.mem_cons.mp hc with hc | hc
        · rw [hc, Bool.or_eq_true]
          exact Or.inl (isAsciiAlpha_toUpper_of_lower hc0.1 hc0.2)
        · rcases htailchars c hc with ⟨h1, h2⟩ | h1
          · rw [Bool.or_eq_true]
            exact Or.inl (isAsciiAlpha_of_lower h1 h2)
          · rw [h1, Bool.or_eq_true]
            exact Or.inr (by decide)
      -- the capitalized sentence splits back into the original words
      have hsplit : splitWs (c0.toUpper :: (cs0 ++ tail)) =
          (c0.toUpper :: cs0) :: rest := by
        have hjoin2 : joinWords ((c0.toUpper :: cs0) :: rest) =
            c0.toUpper :: (cs0 ++ tail) := by
          rw [joinWords_cons c0.toUpper cs0 rest, htail]
        rw [← hjoin2]
        refine splitWs_joinWords ?_
        intro w hw
        rcases List.mem_cons.mp hw with hw | hw
        · constructor
          · rw [hw]
            exact List.cons_ne_nil _ _
          · rw [hw]
            intro c hc
            rcases List.mem_cons.mp hc with hc | hc
            · rw [hc]
              exact not_space_toUpper_of_lower hc0.1 hc0.2
            · exact not_space_of_lower (hw0chars c (List.mem_cons_of_mem c0 hc)).1
        · rcases hok w (List.mem_cons_of_mem _ hw) with ⟨hwne, hwchars⟩
          exact ⟨hwne, fun c hc => not_space_of_lower (hwchars c hc).1⟩
      -- assemble
      unfold decodeL
      show ((splitWs ((capitalizeL (joinWords ((c0 :: cs0) :: rest)) ++ ['.']).filter
          (fun c => isAsciiAlpha c || isPySpace c))).map (fun w => (w.headD ' ').toLower)) = _
      rw [hcap, hfilter, hsplit]
      rw [List.map_cons, List.map_cons]
      have hhead : (((c0.toUpper :: cs0) : List Char).headD ' ').toLower = c0 :=
        toUpper_toLower_of_lower hc0.1 hc0.2
      have hhead2 : ((c0 :: cs0 : List Char)).headD ' ' = c0 := rfl
      rw [hhead, hhead2]
      congr 1
      refine List.map_congr_left ?_
      intro w hw
      rcases hok w (List.mem_cons_of_mem _ hw) with ⟨hwne, hwchars⟩
      match w with
      | [] => exact absurd rfl hwne
      | c :: cs =>
        show Char.toLower c = c
        exact toLower_of_lower (hwchars c (List.mem_cons_self c cs)).1

/-! ## The beam invariant

Every path in the beam spells, via the first letters of its words,
exactly the consumed prefix of the target character sequence. -/

theorem mem_pruneBeam {bw : Nat} {l : List (List Nat × Int)} {p : List Nat × Int}
    (h : p ∈ pruneBeam bw l) : p ∈ l :=
  mem_sortDescBy.mp (List.Sublist.mem h (List.take_sublist bw _))

theorem mem_expandBeam {m : StegModel} {beam : List (List Nat × Int)} {c : Char}
    {p2 : List Nat × Int} (h : p2 ∈ expandBeam m beam c) :
    ∃ p ∈ beam, ∃ q ∈ getCandidates m (lastD p.1) c, p2 = (p.1 ++ [q.1], p.2 + q.2) := by
  unfold expandBeam at h
  rcases List.mem_flatten.mp h with ⟨s, hs, hp2⟩
  rcases List.mem_map.mp hs with ⟨p, hp, hps⟩
  rw [← hps] at hp2
  rcases List.mem_map.mp hp2 with ⟨q, hq, hpq⟩
  exact ⟨p, hp, q, hq, hpq.symm⟩

theorem head?_mem {α : Type} {l : List α} {a : α} (h : l.head? = some a) : a ∈ l := by
  match l with
  | [] => cases h
  | x :: t =>
    have : x = a := Option.some_injective _ h
    rw [← this]
    exact List.mem_cons_self x t

/-- A path is *aligned* with a character list when it is nonempty, all
its word ids name well-formed words, and its words' first letters spell
that list. -/
def alignedPath (m : StegModel) (p : List Nat × Int) (done : List Char) : Prop :=
  p.1 ≠ [] ∧ (∀ i ∈ p.1, wordOk (wordAt m i)) ∧
    p.1.map (fun i => (wordAt m i).headD ' ') = done

theorem runBeam_invariant {m : StegModel} (bw : Nat) (hwf : WFModel m) :
    ∀ (rest : List Char) (beam : List (List Nat × Int)) (done : List Char),
      (∀ p ∈ beam, alignedPath m p done) →
      ∀ p ∈ (runBeam m bw rest beam).1,
        alignedPath m p (done ++ rest.take ((runBeam m bw rest beam).2)) := by
  intro rest
  induction rest with
  | nil =>
    intro beam done hbeam p hp
    rw [List.take_nil, List.append_nil]
    exact hbeam p hp
  | cons c rest ih =>
    intro beam done hbeam p hp
    by_cases hnb : (expandBeam m beam c).isEmpty = true
    · have hrun : runBeam m bw (c :: rest) beam = (beam, 0) := by
        show (if (expandBeam m beam c).isEmpty = true then (beam, 0)
          else ((runBeam m bw rest (pruneBeam bw (expandBeam m beam c))).1,
                (runBeam m bw rest (pruneBeam bw (expandBeam m beam c))).2 + 1)) = (beam, 0)
        rw [hnb]
        rfl
      rw [hrun] at hp ⊢
      simpa using hbeam p hp
    · have hrun : runBeam m bw (c :: rest) beam =
          ((runBeam m bw rest (pruneBeam bw (expandBeam m beam c))).1,
           (runBeam m bw rest (pruneBeam bw (expandBeam m beam c))).2 + 1) := by
        show (if (expandBeam m beam c).isEmpty = true then (beam, 0)
          else ((runBeam m bw rest (pruneBeam bw (expandBeam m beam c))).1,
                (runBeam m bw rest (pruneBeam bw (expandBeam m beam c))).2 + 1)) = _
        rw [Bool.eq_false_iff.mpr hnb]
        rfl
      rw [hrun] at hp ⊢
      have hbeam2 : ∀ p2 ∈ pruneBeam bw (expandBeam m beam c),
          alignedPath m p2 (done ++ [c]) := by
        intro p2 hp2
        rcases mem_expandBeam (mem_pruneBeam hp2) with ⟨p0, hp0, q, hq, hp2eq⟩
        rcases hbeam p0 hp0 with ⟨hp0ne, hp0ok, hp0map⟩
        rcases getCandidates_sound hwf hq with ⟨hqok, hqhead⟩
        rw [hp2eq]
        refine ⟨by simp, ?_, ?_⟩
        · intro i hi
          rcases List.mem_append.mp hi with hi | hi
          · exact hp0ok i hi
          · rw [List.mem_singleton.mp hi]
            exact hqok
        · rw [List.map_append, hp0map]
          show done ++ [(wordAt m q.1).headD ' '] = done ++ [c]
          rw [hqhead]
      have := ih (pruneBeam bw (expandBeam m beam c)) (done ++ [c]) hbeam2 p hp
      rw [List.take_succ_cons, List.append_assoc] at *
      simpa using this

theorem take_min_length {α : Type} (l : List α) (k : Nat) :
    l.take (min k l.length) = l.take k := by
  rcases le_total k l.length with h | h
  · rw [min_eq_left h]
  · rw [min_eq_right h, List.take_length, List.take_of_length_le h]

/-- The best path returned by `encode` is aligned: its words' first
letters spell exactly the first `|path|` characters of the target. -/
theorem encodeBest_aligned {m : StegModel} {hidden : List Char} {bw : Nat}
    {p : List Nat × Int} (hwf : WFModel m) (h : encodeBest m hidden bw = some p) :
    alignedPath m p ((targetChars hidden).take p.1.length) := by
  rcases h2 : targetChars hidden with _ | ⟨c, rest⟩
  · unfold encodeBest at h
    rw [h2] at h
    cases h
  · unfold encodeBest at h
    rw [h2] at h
    have hmem : p ∈ (runBeam m bw rest (pruneBeam bw (initBeam m c))).1 := head?_mem h
    have hinit : ∀ p0 ∈ pruneBeam bw (initBeam m c), alignedPath m p0 [c] := by
      intro p0 hp0
      have hp0init : p0 ∈ initBeam m c := mem_pruneBeam hp0
      unfold initBeam at hp0init
      rcases List.mem_map.mp hp0init with ⟨i, hi, hp0eq⟩
      match hl : alookup c m.wordsByChar with
      | none =>
        rw [hl] at hi
        cases hi
      | some bucket =>
        rw [hl] at hi
        have hb := hwf.1 (c, bucket) (mem_of_alookup hl) i hi
        rw [← hp0eq]
        exact ⟨by simp, by simpa using hb.1, by simpa using hb.2⟩
    have hal := runBeam_invariant bw hwf rest (pruneBeam bw (initBeam m c)) [c] hinit p hmem
    have hlen : p.1.length =
        1 + min ((runBeam m bw rest (pruneBeam bw (initBeam m c))).2) rest.length := by
      have := congrArg List.length hal.2.2
      simp [List.length_take] at this
      omega
    rcases hal with ⟨hne, hok, hmap⟩
    refine ⟨hne, hok, ?_⟩
    rw [hmap, hlen]
    rw [Nat.add_comm 1, List.take_succ_cons, take_min_length]
    rfl

/-- `encode` on a nonempty target returns the rendering of the best path. -/
theorem encodeL_of_best {m : StegModel} {hidden : List Char} {bw : Nat}
    {p : List Nat × Int} (hne : targetChars hidden ≠ [])
    (h : encodeBest m hidden bw = some p) :
    encodeL m hidden bw = some (renderL m p.1) := by
  unfold encodeL
  rcases h2 : targetChars hidden with _ | ⟨c, rest⟩
  · exact absurd h2 hne
  · rw [h]
    rfl

/-- Decoding the rendering of an aligned path recovers exactly the
spelled characters. -/
theorem decode_render_aligned {m : StegModel} {p : List Nat × Int} {done : List Char}
    (hal : alignedPath m p done) : decodeL (renderL m p.1) = done := by
  rcases hal with ⟨hne, hok, hmap⟩
  unfold renderL
  have hws : p.1.map (wordAt m) ≠ [] := by
    intro hcon
    exact hne (List.map_eq_nil_iff.mp hcon)
  have hok2 : ∀ w ∈ p.1.map (wordAt m), wordOk w := by
    intro w hw
    rcases List.mem_map.mp hw with ⟨i, hi, hweq⟩
    rw [← hweq]
    exact hok i hi
  rw [decode_join_words hws hok2, List.map_map]
  exact hmap

/-! ## Encoder claims -/

/-- Encoding consumed the whole target: the target is empty (early
`return ""`), or the best path covers every target character. -/
def deadEndFree (m : StegModel) (hidden : List Char) (bw : Nat) : Prop :=
  targetChars hidden = [] ∨
    ∃ p, encodeBest m hidden bw = some p ∧ p.1.length = (targetChars hidden).length

/-- The model `train` builds from an empty (or fully filtered-out)
corpus: empty vocabulary, empty transition dict, empty fallback pools. -/
def emptyModel : StegModel := ⟨[], [], []⟩

/-- A two-word demonstration model: vocabulary `ha`, `ia` with the
bigram `ha → ia`. -/
def demoModel : StegModel :=
  ⟨[['h', 'a'], ['i', 'a']],
   [((0, 'i'), [(1, -1)])],
   [('h', [0]), ('i', [1])]⟩

/-- A one-word model with no `b`-words: encoding `"ab"` dead-ends after
one character. -/
def deadModel : StegModel :=
  ⟨[['a', 'a']], [], [('a', [0])]⟩

/-- C1: for every well-formed model and message whose encoding does not
hit a dead end, decoding the encoded cover sentence yields exactly the
letter-filtered, lowercased form of the message. -/
theorem claim1_roundtrip (m : StegModel) (hidden : String) (bw : Nat)
    (hwf : WFModel m) (hfree : deadEndFree m hidden.data bw) :
    ∃ s, encode m hidden bw = some s ∧ decode s = filterLettersLowercase hidden := by
  rcases hfree with hempty | ⟨p, hbest, hlen⟩
  · refine ⟨String.mk [], ?_, ?_⟩
    · unfold encode encodeL
      rw [hempty]
      rfl
    · unfold decode filterLettersLowercase
      rw [hempty]
      rfl
  · have hne : targetChars hidden.data ≠ [] := by
      intro hcon
      unfold encodeBest at hbest
      rw [hcon] at hbest
      cases hbest
    have hal := encodeBest_aligned hwf hbest
    rw [hlen, List.take_length] at hal
    refine ⟨String.mk (renderL m p.1), ?_, ?_⟩
    · unfold encode
      rw [encodeL_of_best hne hbest]
      rfl
    · unfold decode filterLettersLowercase
      have hdata : (String.mk (renderL m p.1)).data = renderL m p.1 := rfl
      rw [hdata, decode_render_aligned hal]

theorem claim1_roundtrip_witness :
    ∃ s, encode demoModel "Hi!" 3 = some s ∧ decode s = filterLettersLowercase "Hi!" :=
  claim1_roundtrip demoModel "Hi!" 3
    (by
      unfold WFModel wordOk
      refine ⟨?_, ?_, ?_⟩ <;> decide)
    (Or.inr ⟨([0, 1], -1), by decide, by decide⟩)

/-- C2: if the beam search dead-ends after successfully consuming the
first `i` target characters (so a partial sentence is returned),
decoding that sentence yields exactly the first `i` characters of the
filtered target.  (When even the first character has no candidates,
`i = 0`, no sentence is returned at all — the `beam[0]` crash settled
under C3.) -/
theorem claim2_deadend_decodes_to_take (m : StegModel) (hidden : String) (bw i : Nat)
    (p : List Nat × Int) (hwf : WFModel m)
    (hbest : encodeBest m hidden.data bw = some p) (hlen : p.1.length = i)
    (hdead : i < (targetChars hidden.data).length) :
    ∃ s, encode m hidden bw = some s ∧
      (decode s).data = (filterLettersLowercase hidden).data.take i := by
  have hne : targetChars hidden.data ≠ [] := by
    intro hcon
    rw [hcon] at hdead
    simp at hdead
  have hal := encodeBest_aligned hwf hbest
  rw [hlen] at hal
  refine ⟨String.mk (renderL m p.1), ?_, ?_⟩
  · unfold encode
    rw [encodeL_of_best hne hbest]
    rfl
  · unfold decode filterLettersLowercase
    have hdata : (String.mk (renderL m p.1)).data = renderL m p.1 := rfl
    rw [hdata, decode_render_aligned hal]

theorem claim2_deadend_witness :
    ∃ s, encode deadModel "ab" 3 = some s ∧
      (decode s).data = (filterLettersLowercase "ab").data.take 1 :=
  claim2_deadend_decodes_to_take deadModel "ab" 3 1 ([0], 0)
    (by
      unfold WFModel wordOk
      refine ⟨?_, ?_, ?_⟩ <;> decide)
    (by decide) (by decide) (by decide)

/-- C3 (the code, not the claim): encoding any message containing a
letter against the empty model leaves the beam empty, and `encode`
yields no result — `best_path = beam[0]` raises an uncaught
`IndexError` (modelled by `none`) instead of returning a degraded
output as the specification requires. -/
theorem claim3_empty_model_raises (hidden : String) (bw : Nat)
    (hne : targetChars hidden.data ≠ []) :
    encode emptyModel hidden bw = none := by
  have hrunNil : ∀ rest2 : List Char, (runBeam emptyModel bw rest2 []).1 = [] := by
    intro rest2
    cases rest2 with
    | nil => rfl
    | cons c2 r2 => rfl
  rcases h2 : targetChars hidden.data with _ | ⟨c, rest⟩
  · exact absurd h2 hne
  · have hb : encodeBest emptyModel hidden.data bw = none := by
      have h3 : pruneBeam bw (initBeam emptyModel c) = [] := by
        have h4 : sortDescBy (fun p : List Nat × Int => p.2) (initBeam emptyModel c) = [] := rfl
        unfold pruneBeam
        rw [h4]
        simp
      unfold encodeBest
      rw [h2]
      show (runBeam emptyModel bw rest (pruneBeam bw (initBeam emptyModel c))).1.head? = none
      rw [h3, hrunNil rest]
      rfl
    unfold encode encodeL
    rw [h2, hb]
    rfl

theorem claim3_empty_model_raises_witness :
    encode emptyModel "a" 3 = none :=
  claim3_empty_model_raises "a" 3 (by decide)

/-- C9: a message with no letter characters encodes to the empty string
as a defined no-op, for every model and every `beamWidth ≥ 1`. -/
theorem claim9_empty_target (m : StegModel) (hidden : String) (bw : Nat)
    (hbw : 1 ≤ bw) (h : targetChars hidden.data = []) :
    encode m hidden bw = some "" := by
  unfold encode encodeL
  rw [h]
  rfl

theorem claim9_empty_target_witness :
    encode emptyModel "1 2, 3!" 1 = some "" :=
  claim9_empty_target emptyModel "1 2, 3!" 1 (by decide) (by decide)

/-! ## Beam-width monotonicity (C8) -/

theorem expandBeam_append (m : StegModel) (A B : List (List Nat × Int)) (c : Char) :
    expandBeam m (A ++ B) c = expandBeam m A c ++ expandBeam m B c := by
  unfold expandBeam
  rw [List.map_append, List.flatten_append]

theorem expandBeam_eq_nil {m : StegModel} {beam : List (List Nat × Int)} {c : Char}
    (h : expandBeam m beam c = []) :
    ∀ p ∈ beam, getCandidates m (lastD p.1) c = [] := by
  intro p hp
  unfold expandBeam at h
  have hmem : (getCandidates m (lastD p.1) c).map
      (fun q => (p.1 ++ [q.1], p.2 + q.2)) ∈
      beam.map (fun p =>
        (getCandidates m (lastD p.1) c).map (fun q => (p.1 ++ [q.1], p.2 + q.2))) :=
    List.mem_map_of_mem _ hp
  have hnil := (List.flatten_eq_nil_iff.mp h) _ hmem
  exact List.map_eq_nil_iff.mp hnil

theorem pool_empty_of_getCandidates_nil {m : StegModel} {cur : Nat} {c : Char}
    (h : getCandidates m cur c = []) : (alookup c m.wordsByChar).getD [] = [] := by
  unfold getCandidates at h
  by_cases hc : ((alookup (cur, c) m.transitions).getD []).isEmpty = true
  · rw [if_pos hc] at h
    have htake := List.map_eq_nil_iff.mp h
    rcases List.take_eq_nil_iff.mp htake with h10 | hpool
    · cases h10
    · exact hpool
  · rw [if_neg hc] at h
    rw [h] at hc
    simp at hc

theorem getCandidates_nil_of_pool_empty {m : StegModel} (hwf : WFModel m) {cur : Nat}
    {c : Char} (hpool : (alookup c m.wordsByChar).getD [] = []) :
    getCandidates m cur c = [] := by
  unfold getCandidates
  by_cases hc : ((alookup (cur, c) m.transitions).getD []).isEmpty = true
  · rw [if_pos hc, hpool]
    rfl
  · exfalso
    match hl : alookup (cur, c) m.transitions with
    | none =>
      rw [hl] at hc
      simp at hc
    | some bucket =>
      rw [hl] at hc
      have hbne : bucket ≠ [] := by
        intro hcon
        rw [hcon] at hc
        simp at hc
      exact hwf.2.2 ((cur, c), bucket) (mem_of_alookup hl) hbne hpool

theorem initBeam_score {m : StegModel} {c : Char} {p : List Nat × Int}
    (h : p ∈ initBeam m c) : p.2 = 0 := by
  unfold initBeam at h
  rcases List.mem_map.mp h with ⟨i, hi, hpeq⟩
  rw [← hpeq]

theorem head?_take {α : Type} {l : List α} {n : Nat} {a : α}
    (h : (l.take n).head? = some a) : l.head? = some a := by
  match n, l with
  | 0, _ => cases h
  | _ + 1, [] => cases h
  | _ + 1, x :: t => exact h

/-- `runBeam` on a single remaining character. -/
theorem runBeam_single (m : StegModel) (bw : Nat) (c : Char)
    (beam : List (List Nat × Int)) :
    runBeam m bw [c] beam =
      if (expandBeam m beam c).isEmpty then (beam, 0)
      else (pruneBeam bw (expandBeam m beam c), 1) := by
  show (if (expandBeam m beam c).isEmpty = true then (beam, 0)
    else ((runBeam m bw [] (pruneBeam bw (expandBeam m beam c))).1,
          (runBeam m bw [] (pruneBeam bw (expandBeam m beam c))).2 + 1)) = _
  by_cases hnb : (expandBeam m beam c).isEmpty = true
  · rw [if_pos hnb, if_pos hnb]
  · rw [if_neg hnb, if_neg hnb]
    rfl

/-- C8, amended: for well-formed models and target sequences of length
at most 2, a wider beam never returns a lower best score.  (For length
≥ 3 monotonicity fails — see the counterexample.) -/
theorem claim8_monotone_short (m : StegModel) (hidden : String) (bw1 bw2 : Nat)
    (p1 p2 : List Nat × Int) (hwf : WFModel m)
    (hlen : (targetChars hidden.data).length ≤ 2) (hbw : bw1 ≤ bw2)
    (h1 : encodeBest m hidden.data bw1 = some p1)
    (h2 : encodeBest m hidden.data bw2 = some p2) :
    p1.2 ≤ p2.2 := by
  rcases ht : targetChars hidden.data with _ | ⟨c, rest⟩
  · unfold encodeBest at h1
    rw [ht] at h1
    cases h1
  rcases rest with _ | ⟨c2, rest2⟩
  · -- a single target character: every initial path scores 0
    unfold encodeBest at h1 h2
    rw [ht] at h1 h2
    have hp1 : p1 ∈ pruneBeam bw1 (initBeam m c) := head?_mem h1
    have hp2 : p2 ∈ pruneBeam bw2 (initBeam m c) := head?_mem h2
    rw [initBeam_score (mem_pruneBeam hp1), initBeam_score (mem_pruneBeam hp2)]
  rcases rest2 with _ | ⟨c3, rest3⟩
  · -- exactly two target characters
    unfold encodeBest at h1 h2
    rw [ht] at h1 h2
    have h1 : (runBeam m bw1 [c2] (pruneBeam bw1 (initBeam m c))).1.head? = some p1 := h1
    have h2 : (runBeam m bw2 [c2] (pruneBeam bw2 (initBeam m c))).1.head? = some p2 := h2
    rw [runBeam_single] at h1 h2
    -- the narrow initial beam is a prefix of the wide one
    have hpre : pruneBeam bw1 (initBeam m c) =
        (pruneBeam bw2 (initBeam m c)).take bw1 := by
      unfold pruneBeam
      rw [List.take_take, min_eq_left hbw]
    obtain ⟨D, hD⟩ : ∃ D, pruneBeam bw2 (initBeam m c) =
        pruneBeam bw1 (initBeam m c) ++ D := by
      refine ⟨(pruneBeam bw2 (initBeam m c)).drop bw1, ?_⟩
      rw [hpre]
      exact (List.take_append_drop bw1 _).symm
    by_cases hnb : (expandBeam m (pruneBeam bw1 (initBeam m c)) c2).isEmpty = true
    · -- the narrow beam dead-ends; by well-formedness so does the wide one
      rw [if_pos hnb] at h1
      have hpool : (alookup c2 m.wordsByChar).getD [] = [] := by
        have hp1mem : p1 ∈ pruneBeam bw1 (initBeam m c) := head?_mem h1
        have hcand := expandBeam_eq_nil (List.isEmpty_iff.mp hnb) p1 hp1mem
        exact pool_empty_of_getCandidates_nil hcand
      have hnb2 : (expandBeam m (pruneBeam bw2 (initBeam m c)) c2).isEmpty = true := by
        rw [hD, expandBeam_append, List.isEmpty_iff, List.append_eq_nil]
        constructor
        · exact List.isEmpty_iff.mp hnb
        · unfold expandBeam
          rw [List.flatten_eq_nil_iff]
          intro l hl
          rcases List.mem_map.mp hl with ⟨p0, hp0, hleq⟩
          rw [← hleq, getCandidates_nil_of_pool_empty hwf hpool]
          rfl
      rw [if_pos hnb2] at h2
      have hp1 : p1 ∈ pruneBeam bw1 (initBeam m c) := head?_mem h1
      have hp2 : p2 ∈ pruneBeam bw2 (initBeam m c) := head?_mem h2
      rw [initBeam_score (mem_pruneBeam hp1), initBeam_score (mem_pruneBeam hp2)]
    · -- both expansions are nonempty; the wide one is a superset
      have hnb2 : ¬(expandBeam m (pruneBeam bw2 (initBeam m c)) c2).isEmpty = true := by
        rw [hD, expandBeam_append, List.isEmpty_iff, List.append_eq_nil]
        intro hcon
        rw [List.isEmpty_iff] at hnb
        exact hnb hcon.1
      rw [if_neg hnb] at h1
      rw [if_neg hnb2] at h2
      -- p1 is a member of the wide expansion, p2 its maximum
      have hp1mem : p1 ∈ expandBeam m (pruneBeam bw1 (initBeam m c)) c2 :=
        mem_pruneBeam (head?_mem h1)
      have hp1mem2 : p1 ∈ expandBeam m (pruneBeam bw2 (initBeam m c)) c2 := by
        rw [hD, expandBeam_append]
        exact List.mem_append_left _ hp1mem
      have hhead2 : (sortDescBy (fun p : List Nat × Int => p.2)
          (expandBeam m (pruneBeam bw2 (initBeam m c)) c2)).head? = some p2 :=
        head?_take h2
      match hsort : sortDescBy (fun p : List Nat × Int => p.2)
          (expandBeam m (pruneBeam bw2 (initBeam m c)) c2) with
      | [] =>
        rw [hsort] at hhead2
        cases hhead2
      | q :: t =>
        rw [hsort] at hhead2
        have hq : q = p2 := Option.some_injective _ hhead2
        rw [← hq]
        exact head_sortDescBy_max hsort p1 hp1mem2
  · -- targets of length ≥ 3 are excluded by the hypothesis
    rw [ht] at hlen
    simp at hlen

/-- A well-formed model on which a wider beam returns a strictly lower
best score for the target `abc`: with width 1 the greedy `aa → ba → ca`
chain survives (score −6); with width 2 both `ab → bb` and `ab → bc`
(score −1) crowd out `aa → ba`, and neither has a model-backed
`c`-continuation, forcing the −20 fallback (final score −21). -/
def cexModel8 : StegModel :=
  ⟨[['a', 'a'], ['a', 'b'], ['b', 'a'], ['b', 'b'], ['b', 'c'], ['c', 'a']],
   [((0, 'b'), [(2, -5)]), ((1, 'b'), [(3, -1), (4, -1)]), ((2, 'c'), [(5, -1)])],
   [('a', [0, 1]), ('b', [2, 3, 4]), ('c', [5])]⟩

/-- C8 as stated is false: `beamWidth = 2` yields best score −21 where
`beamWidth = 1` yields −6, on a well-formed model. -/
theorem claim8_counterexample :
    WFModel cexModel8 ∧
    (encodeBest cexModel8 "abc".data 1).map (fun p => p.2) = some (-6) ∧
    (encodeBest cexModel8 "abc".data 2).map (fun p => p.2) = some (-21) ∧
    ((-21 : Int) < -6) := by
  refine ⟨?_, by decide, by decide, by decide⟩
  unfold WFModel wordOk
  refine ⟨?_, ?_, ?_⟩ <;> decide

theorem claim8_monotone_short_witness :
    ((-1 : Int) ≤ -1) ∧ encodeBest demoModel "Hi!".data 1 = some ([0, 1], -1) ∧
      encodeBest demoModel "Hi!".data 2 = some ([0, 1], -1) := by
  refine ⟨?_, by decide, by decide⟩
  exact claim8_monotone_short demoModel "Hi!" 1 2 ([0, 1], -1) ([0, 1], -1)
    (by
      unfold WFModel wordOk
      refine ⟨?_, ?_, ?_⟩ <;> decide)
    (by decide) (by decide) (by decide) (by decide)

/-! ## Candidate sourcing (C4) -/

/-- Modelled from the spec: the §4.5 trigram-first step-candidate rule.
The encoder that consumes the compiled trigram artifact (the external
renderer in `public/`) is not among the sources; only its builder is.
Per the spec, the preferred source is the trigram table keyed by the
path's last two word ids; if that has no entry (or the path has fewer
than two words), the bigram table keyed by the last word id; if that too
has no entry, the penalty-scored fallback pool — i.e. the bigram stage
onwards is exactly `get_candidates`. -/
def specGetCandidates (m : StegModel) (trig : List ((Nat × Nat × Char) × List (Nat × Int)))
    (path : List Nat) (c : Char) : List (Nat × Int) :=
  match last2 path with
  | some (w1, w2) =>
    match alookup (w1, w2, c) trig with
    | some l => l
    | none => getCandidates m w2 c
  | none => getCandidates m (lastD path) c

/-- A trigram table disagreeing with the bigram fallback on context
`(0, 1)` and letter `i`. -/
def cexTrig4 : List ((Nat × Nat × Char) × List (Nat × Int)) :=
  [((0, 1, 'i'), [(0, -1)])]

/-- C4 as stated is false: the encoder's per-step candidates come from
`get_candidates`, which consults no trigram table at all, so they differ
from the spec's trigram-first rule whenever the trigram bucket for the
path's last two word ids disagrees with the bigram stage. -/
theorem claim4_counterexample :
    getCandidates demoModel (lastD [0, 1]) 'i' ≠
      specGetCandidates demoModel cexTrig4 [0, 1] 'i' := by
  decide

/-- C4, amended: at every step the encoder draws a path's candidates
from the bigram transition bucket keyed by the path's last word id (there
is no trigram stage); only if that bucket is absent or empty does it use
a fallback pool of at most 10 vocabulary words starting with the target
character, each scored with the fixed penalty `-20`; model-backed and
fallback candidates are never mixed, and every candidate's word starts
with the target character. -/
theorem claim4_bigram_then_fallback (m : StegModel) (hwf : WFModel m) (cur : Nat)
    (c : Char) :
    ((alookup (cur, c) m.transitions).getD [] ≠ [] →
      getCandidates m cur c = (alookup (cur, c) m.transitions).getD []) ∧
    ((alookup (cur, c) m.transitions).getD [] = [] →
      getCandidates m cur c =
        (((alookup c m.wordsByChar).getD []).take 10).map (fun i => (i, penaltyScore)) ∧
      (getCandidates m cur c).length ≤ 10 ∧
      ∀ q ∈ getCandidates m cur c, q.2 = penaltyScore) ∧
    (∀ q ∈ getCandidates m cur c, (wordAt m q.1).headD ' ' = c) := by
  refine ⟨?_, ?_, ?_⟩
  · intro hne
    unfold getCandidates
    rw [if_neg ?_]
    intro hcon
    exact hne (List.isEmpty_iff.mp hcon)
  · intro hnil
    have hfall : getCandidates m cur c =
        (((alookup c m.wordsByChar).getD []).take 10).map (fun i => (i, penaltyScore)) := by
      unfold getCandidates
      rw [hnil]
      rfl
    refine ⟨hfall, ?_, ?_⟩
    · rw [hfall, List.length_map, List.length_take]
      exact min_le_left 10 _
    · intro q hq
      rw [hfall] at hq
      rcases List.mem_map.mp hq with ⟨i, hi, hqeq⟩
      rw [← hqeq]
  · intro q hq
    exact (getCandidates_sound hwf hq).2

theorem claim4_bigram_then_fallback_witness :
    getCandidates demoModel 0 'i' = (alookup (0, 'i') demoModel.transitions).getD [] :=
  (claim4_bigram_then_fallback demoModel
    (by
      unfold WFModel wordOk
      refine ⟨?_, ?_, ?_⟩ <;> decide)
    0 'i').1 (by decide)

/-! ## The model builders (`src/scripts/data_builder.py`)

Counters and nested dicts are association lists updated in place, so
key order is insertion (= first occurrence) order, as for Python's
`dict`/`Counter`. -/

def dedupFirstAux {α : Type} [DecidableEq α] (seen : List α) : List α → List α
  | [] => []
  | x :: xs => if x ∈ seen then dedupFirstAux seen xs else x :: dedupFirstAux (x :: seen) xs

def dedupFirst {α : Type} [DecidableEq α] (l : List α) : List α :=
  dedupFirstAux [] l

/-- A `collections.Counter` over a token stream: keys in first-occurrence
order, each with its total count. -/
def countOcc {α : Type} [DecidableEq α] (w : α) (l : List α) : Nat :=
  l.count w

def counter {α : Type} [DecidableEq α] (l : List α) : List (α × Nat) :=
  (dedupFirst l).map (fun w => (w, countOcc w l))

/-- `[w for w, _ in word_counts.most_common()]`: the vocabulary in
descending global frequency, ties in first-occurrence order. -/
def buildVocab {α : Type} [DecidableEq α] (tokens : List α) : List α :=
  (sortDescBy (fun e => e.2) (counter tokens)).map (fun e => e.1)

/-- `word_to_id[w]` for the enumerated vocabulary: the index of `w`. -/
def idxOf {α : Type} [DecidableEq α] (w : α) : List α → Nat
  | [] => 0
  | x :: xs => if x = w then 0 else idxOf w xs + 1

/-- `counter[w] += 1` on an association list. -/
def bumpCount {α : Type} [DecidableEq α] (w : α) : List (α × Nat) → List (α × Nat)
  | [] => [(w, 1)]
  | e :: rest => if e.1 = w then (e.1, e.2 + 1) :: rest else e :: bumpCount w rest

/-- `raw_bigrams[k][v] += 1`. -/
def upsertPair {α : Type} [DecidableEq α] (k v : α) :
    List (α × List (α × Nat)) → List (α × List (α × Nat))
  | [] => [(k, [(v, 1)])]
  | e :: rest =>
    if e.1 = k then (e.1, bumpCount v e.2) :: rest else e :: upsertPair k v rest

def rawBigramsOf {α : Type} [DecidableEq α] (prs : List (α × α)) :
    List (α × List (α × Nat)) :=
  prs.foldl (fun acc q => upsertPair q.1 q.2 acc) []

/-- `raw_trigrams[k1][k2][k3] += 1`. -/
def upsertTri {α : Type} [DecidableEq α] (k1 k2 k3 : α) :
    List (α × List (α × List (α × Nat))) → List (α × List (α × List (α × Nat)))
  | [] => [(k1, [(k2, [(k3, 1)])])]
  | e :: rest =>
    if e.1 = k1 then (e.1, upsertPair k2 k3 e.2) :: rest else e :: upsertTri k1 k2 k3 rest

def rawTrigramsOf {α : Type} [DecidableEq α] (trs : List (α × α × α)) :
    List (α × List (α × List (α × Nat))) :=
  trs.foldl (fun acc t => upsertTri t.1 t.2.1 t.2.2 acc) []

/-- The word→id conversion of the bigram builder (`word_to_id` covers
every aggregated word, and is injective, so the nested dicts map over
one-to-one). -/
def idBigramsOf (vocab : List (List Char)) (raw : List (List Char × List (List Char × Nat))) :
    List (Nat × List (Nat × Nat)) :=
  raw.map (fun e => (idxOf e.1 vocab, e.2.map (fun q => (idxOf q.1 vocab, q.2))))

/-- The word→id conversion of the trigram builder, with its explicit
`if word not in word_to_id: continue` checks at every level. -/
def idTrigramsOf (vocab : List (List Char))
    (raw : List (List Char × List (List Char × List (List Char × Nat)))) :
    List (Nat × List (Nat × List (Nat × Nat))) :=
  raw.filterMap (fun e1 =>
    if e1.1 ∈ vocab then
      some (idxOf e1.1 vocab, e1.2.filterMap (fun e2 =>
        if e2.1 ∈ vocab then
          some (idxOf e2.1 vocab, e2.2.filterMap (fun q =>
            if q.1 ∈ vocab then some (idxOf q.1 vocab, q.2) else none))
        else none))
    else none)

def firstCharOf (itw : Nat → List Char) (i : Nat) : Char :=
  (itw i).headD ' '

/-- `char_groups[start_char].append((next_id, count))`. -/
def upsertGroup (c : Char) (q : Nat × Nat) :
    List (Char × List (Nat × Nat)) → List (Char × List (Nat × Nat))
  | [] => [(c, [q])]
  | g :: rest => if g.1 = c then (g.1, g.2 ++ [q]) :: rest else g :: upsertGroup c q rest

def groupByChar (itw : Nat → List Char) (qs : List (Nat × Nat)) :
    List (Char × List (Nat × Nat)) :=
  qs.foldl (fun acc q => upsertGroup (firstCharOf itw q.1) q acc) []

/-- Candidate buckets before dropping the counts: per first letter (in
dict insertion order), the `count ≥ minFreq` candidates sorted by count
descending (stable) and truncated to `K`. -/
def bucketPairsFor (itw : Nat → List Char) (K mf : Nat) (qs : List (Nat × Nat)) :
    List (Char × List (Nat × Nat)) :=
  (groupByChar itw (qs.filter (fun q => mf ≤ q.2))).map
    (fun g => (g.1, (sortDescBy (fun q => q.2) g.2).take K))

/-- The per-context compaction shared by `build_model`
(`src/backup/data_builder.py`), `build_model_incremental` and — per
`(word1, word2)` context — `build_trigram_model_incremental`: skip
`count < minFreq`, group by first letter, sort by count descending,
keep the first `K`, drop the counts. -/
def compactContext (itw : Nat → List Char) (K mf : Nat) (qs : List (Nat × Nat)) :
    List (Char × List Nat) :=
  (bucketPairsFor itw K mf qs).map (fun g => (g.1, g.2.map (fun q => q.1)))

def TOP_K_PER_LETTER : Nat := 30
def MIN_BIGRAM_FREQ : Nat := 2
def TOP_K_PER_LETTER_TRIGRAM : Nat := 20
def MIN_TRIGRAM_FREQ : Nat := 2

/-- The valid-word token stream: each chunk filtered by the
English-dictionary membership test. -/
def validChunks (chunks : List (List (List Char))) (valid : List Char → Bool) :
    List (List (List Char)) :=
  chunks.map (fun ch => ch.filter valid)

/-- `build_model_incremental`: chunked tokenized corpus and word filter
to the final pruned bigram table `[(contextId, [(letter, [ids])])]`. -/
def buildBigramTable (chunks : List (List (List Char))) (valid : List Char → Bool) :
    List (Nat × List (Char × List Nat)) :=
  let vocab := buildVocab (validChunks chunks valid).flatten
  let itw := fun i => vocab.getD i []
  (idBigramsOf vocab (rawBigramsOf (chunkPairs none (validChunks chunks valid)))).filterMap
    (fun e =>
      let g := compactContext itw TOP_K_PER_LETTER MIN_BIGRAM_FREQ e.2
      if g.isEmpty then none else some (e.1, g))

/-- `build_trigram_model_incremental`, against the shared vocabulary
built by the bigram pass. -/
def buildTrigramTable (chunks : List (List (List Char))) (valid : List Char → Bool)
    (vocab : List (List Char)) : List (Nat × List (Nat × List (Char × List Nat))) :=
  let itw := fun i => vocab.getD i []
  (idTrigramsOf vocab (rawTrigramsOf (chunkTriples [] (validChunks chunks valid)))).filterMap
    (fun e1 =>
      let inner := e1.2.filterMap (fun e2 =>
        let g := compactContext itw TOP_K_PER_LETTER_TRIGRAM MIN_TRIGRAM_FREQ e2.2
        if g.isEmpty then none else some (e2.1, g))
      if inner.isEmpty then none else some (e1.1, inner))

/-- Lexicographic comparison of words (Python string `sorted`). -/
def lexLe : List Char → List Char → Bool
  | [], _ => true
  | _ :: _, [] => false
  | a :: as, b :: bs => if a < b then true else if b < a then false else lexLe as bs

/-- The vocabulary order of `SteganographyLLM.train`:
`sorted(list(set(tokens)))` — distinct tokens in lexicographic (not
frequency) order. -/
def backupTrainVocab (corpus : List Char) : List (List Char) :=
  sortWith lexLe (dedupFirst (preprocessTokens corpus))

/-! ## Cross-chunk aggregation (C7) -/

/-- C7, amended: chunked aggregation emits exactly the same multiset of
2-windows and 3-windows as single-chunk aggregation over the same token
stream — so every context's summed count equals its true number of
occurrences in the corpus, chunking notwithstanding.  (Byte-identical
final tables do **not** follow: the emission *order* differs, so tied
candidates can be ranked differently — see the counterexample.) -/
theorem claim7_chunk_counts_invariant (chunks : List (List (List Char))) :
    List.Perm (chunkPairs none chunks) (pairs chunks.flatten) ∧
    List.Perm (chunkTriples [] chunks) (triples chunks.flatten) := by
  constructor
  · have h := chunkPairs_perm none chunks
    simpa [optList] using h
  · have h := chunkTriples_perm [] chunks (by simp)
    simpa using h

/-- The corpus `an no an nu an no an nu` in one chunk. -/
def cexChunksA : List (List (List Char)) :=
  [["an".data, "no".data, "an".data, "nu".data, "an".data, "no".data, "an".data, "nu".data]]

/-- The same corpus split after the first token.  The cross-chunk bigram
`(an, no)` is now counted *after* the second chunk's internal bigrams,
so in the context `an` the first-inserted next word is `nu`, not `no`;
with both counts tied at 2, the stable sort ranks `nu` before `no`. -/
def cexChunksB : List (List (List Char)) :=
  [["an".data],
   ["no".data, "an".data, "nu".data, "an".data, "no".data, "an".data, "nu".data]]

/-- C7 as stated is false: one corpus, two chunkings, two different
final pruned bigram tables (tied candidates swap order in a bucket). -/
theorem claim7_counterexample :
    cexChunksA.flatten = cexChunksB.flatten ∧
    buildBigramTable cexChunksA (fun _ => true) ≠
      buildBigramTable cexChunksB (fun _ => true) := by
  exact ⟨by decide, by decide⟩

/-! ## Bucket invariants (C5) -/

theorem mem_upsertGroup {c : Char} {q : Nat × Nat} :
    ∀ (acc : List (Char × List (Nat × Nat))), ∀ g ∈ upsertGroup c q acc, ∀ r ∈ g.2,
      (∃ g0 ∈ acc, g0.1 = g.1 ∧ r ∈ g0.2) ∨ (r = q ∧ g.1 = c) := by
  intro acc
  induction acc with
  | nil =>
    intro g hg r hr
    have hg2 : g = (c, [q]) := List.mem_singleton.mp hg
    rw [hg2] at hr
    right
    exact ⟨List.mem_singleton.mp hr, by rw [hg2]⟩
  | cons g1 rest ih =>
    intro g hg r hr
    unfold upsertGroup at hg
    by_cases h1 : g1.1 = c
    · rw [if_pos h1] at hg
      rcases List.mem_cons.mp hg with hg | hg
      · rw [hg] at hr
        rcases List.mem_append.mp hr with hr | hr
        · left
          exact ⟨g1, List.mem_cons_self g1 rest, by rw [hg], hr⟩
        · right
          refine ⟨List.mem_singleton.mp hr, ?_⟩
          rw [hg]
          exact h1
      · left
        exact ⟨g, List.mem_cons_of_mem g1 hg, rfl, hr⟩
    · rw [if_neg h1] at hg
      rcases List.mem_cons.mp hg with hg | hg
      · left
        exact ⟨g1, List.mem_cons_self g1 rest, by rw [hg], hg ▸ hr⟩
      · rcases ih g hg r hr with ⟨g0, hg0, heq, hrg0⟩ | hqc
        · left
          exact ⟨g0, List.mem_cons_of_mem g1 hg0, heq, hrg0⟩
        · right
          exact hqc

theorem groupByChar_sound (itw : Nat → List Char) (P : Nat × Nat → Prop) :
    ∀ (qs : List (Nat × Nat)) (acc : List (Char × List (Nat × Nat))),
      (∀ g ∈ acc, ∀ r ∈ g.2, firstCharOf itw r.1 = g.1 ∧ P r) →
      (∀ q ∈ qs, P q) →
      ∀ g ∈ qs.foldl (fun acc q => upsertGroup (firstCharOf itw q.1) q acc) acc,
        ∀ r ∈ g.2, firstCharOf itw r.1 = g.1 ∧ P r := by
  intro qs
  induction qs with
  | nil =>
    intro acc hacc hqs
    exact hacc
  | cons q qs ih =>
    intro acc hacc hqs
    rw [List.foldl_cons]
    refine ih _ ?_ (fun q2 hq2 => hqs q2 (List.mem_cons_of_mem q hq2))
    intro g hg r hr
    rcases mem_upsertGroup acc g hg r hr with ⟨g0, hg0, heq, hrg0⟩ | ⟨hrq, hgc⟩
    · have h2 := hacc g0 hg0 r hrg0
      exact ⟨heq ▸ h2.1, h2.2⟩
    · rw [hrq]
      exact ⟨by rw [hgc], hqs q (List.mem_cons_self q qs)⟩

theorem bucketPairs_sound (itw : Nat → List Char) (K mf : Nat) (qs : List (Nat × Nat)) :
    ∀ g ∈ bucketPairsFor itw K mf qs,
      g.2.length ≤ K ∧
      (∀ q ∈ g.2, firstCharOf itw q.1 = g.1 ∧ mf ≤ q.2 ∧ q ∈ qs) ∧
      List.Pairwise (fun a b : Nat × Nat => b.2 ≤ a.2) g.2 := by
  intro g hg
  unfold bucketPairsFor at hg
  rcases List.mem_map.mp hg with ⟨g0, hg0, geq⟩
  have hgrp := groupByChar_sound itw (fun q => mf ≤ q.2 ∧ q ∈ qs)
    (qs.filter (fun q => mf ≤ q.2)) [] (by intro g2 hg2; cases hg2)
    (fun q hq => ⟨of_decide_eq_true (List.mem_filter.mp hq).2, (List.mem_filter.mp hq).1⟩)
    g0 hg0
  refine ⟨?_, ?_, ?_⟩
  · rw [← geq]
    show ((sortDescBy (fun q : Nat × Nat => q.2) g0.2).take K).length ≤ K
    rw [List.length_take]
    exact min_le_left K _
  · intro q hq
    rw [← geq] at hq
    have hq2 : q ∈ g0.2 :=
      mem_sortDescBy.mp (List.Sublist.mem hq (List.take_sublist K _))
    have h2 := hgrp q hq2
    rw [← geq]
    exact ⟨h2.1, h2.2.1, h2.2.2⟩
  · rw [← geq]
    exact (pairwise_sortDescBy (fun q : Nat × Nat => q.2) g0.2).sublist
      (List.take_sublist K _)

/-- C5: in every compiled letter bucket, each kept candidate's word
starts with the bucket letter, the bucket holds at most `K` candidates,
every kept candidate's raw count is at least `minFreq` (and comes from
the context's raw count map), the candidates are ordered by descending
raw count, and the serialized bucket is exactly these candidates' ids.
Instantiated with `K = 30, minFreq = 2` for the bigram table and
`K = 20, minFreq = 2` for the trigram table. -/
theorem claim5_bucket_invariants (itw : Nat → List Char) (K mf : Nat)
    (qs : List (Nat × Nat)) :
    ∀ g ∈ bucketPairsFor itw K mf qs,
      g.2.length ≤ K ∧
      (∀ q ∈ g.2, firstCharOf itw q.1 = g.1 ∧ mf ≤ q.2 ∧ q ∈ qs) ∧
      List.Pairwise (fun a b : Nat × Nat => b.2 ≤ a.2) g.2 ∧
      (g.1, g.2.map (fun q => q.1)) ∈ compactContext itw K mf qs := by
  intro g hg
  have h := bucketPairs_sound itw K mf qs g hg
  exact ⟨h.1, h.2.1, h.2.2, List.mem_map_of_mem _ hg⟩

/-- A three-word vocabulary for the bucket-invariant witness. -/
def vocab5 : List (List Char) := ["an".data, "no".data, "nu".data]

theorem claim5_bucket_invariants_witness :
    (('n', [(1, 3), (2, 2)]) : Char × List (Nat × Nat)).2.length ≤ 30 ∧
      ('n', [1, 2]) ∈
        compactContext (fun i => vocab5.getD i []) 30 2 [(1, 3), (2, 2), (0, 1)] := by
  have h := claim5_bucket_invariants (fun i => vocab5.getD i []) 30 2
    [(1, 3), (2, 2), (0, 1)] ('n', [(1, 3), (2, 2)]) (by decide)
  exact ⟨h.1, h.2.2.2⟩

/-! ## Vocabulary invariants (C6) -/

theorem mem_dedupFirstAux {α : Type} [DecidableEq α] {x : α} (l : List α) :
    ∀ seen, x ∈ dedupFirstAux seen l ↔ (x ∈ l ∧ x ∉ seen) := by
  induction l with
  | nil =>
    intro seen
    simp [dedupFirstAux]
  | cons y ys ih =>
    intro seen
    unfold dedupFirstAux
    by_cases hy : y ∈ seen
    · rw [if_pos hy, ih seen]
      constructor
      · rintro ⟨h1, h2⟩
        exact ⟨List.mem_cons_of_mem y h1, h2⟩
      · rintro ⟨h1, h2⟩
        rcases List.mem_cons.mp h1 with h1 | h1
        · exact absurd (h1 ▸ hy) h2
        · exact ⟨h1, h2⟩
    · rw [if_neg hy]
      constructor
      · intro h
        rcases List.mem_cons.mp h with h | h
        · exact ⟨h ▸ List.mem_cons_self y ys, h ▸ hy⟩
        · rcases (ih (y :: seen)).mp h with ⟨h1, h2⟩
          exact ⟨List.mem_cons_of_mem y h1,
            fun hc => h2 (List.mem_cons_of_mem y hc)⟩
      · rintro ⟨h1, h2⟩
        by_cases hxy : x = y
        · rw [hxy]
          exact List.mem_cons_self y _
        · rcases List.mem_cons.mp h1 with h1 | h1
          · exact absurd h1 hxy
          · refine List.mem_cons_of_mem y ((ih (y :: seen)).mpr ⟨h1, ?_⟩)
            intro hc
            rcases List.mem_cons.mp hc with hc | hc
            · exact hxy hc
            · exact h2 hc

theorem nodup_dedupFirstAux {α : Type} [DecidableEq α] (l : List α) :
    ∀ seen, (dedupFirstAux seen l).Nodup := by
  induction l with
  | nil =>
    intro seen
    exact List.nodup_nil
  | cons y ys ih =>
    intro seen
    unfold dedupFirstAux
    by_cases hy : y ∈ seen
    · rw [if_pos hy]
      exact ih seen
    · rw [if_neg hy]
      refine List.nodup_cons.mpr ⟨?_, ih (y :: seen)⟩
      intro hc
      exact ((mem_dedupFirstAux ys (y :: seen)).mp hc).2 (List.mem_cons_self y seen)

theorem mem_dedupFirst {α : Type} [DecidableEq α] {x : α} {l : List α} :
    x ∈ dedupFirst l ↔ x ∈ l := by
  unfold dedupFirst
  rw [mem_dedupFirstAux l []]
  simp

theorem counter_count {α : Type} [DecidableEq α] {l : List α} {e : α × Nat}
    (h : e ∈ counter l) : e.2 = countOcc e.1 l := by
  rcases List.mem_map.mp h with ⟨w, hw, heq⟩
  rw [← heq]

theorem mem_buildVocab {α : Type} [DecidableEq α] {w : α} {tokens : List α} :
    w ∈ buildVocab tokens ↔ w ∈ tokens := by
  unfold buildVocab
  constructor
  · intro h
    rcases List.mem_map.mp h with ⟨e, he, heq⟩
    have he2 : e ∈ counter tokens := mem_sortDescBy.mp he
    rcases List.mem_map.mp he2 with ⟨w0, hw0, heq0⟩
    rw [← heq, ← heq0]
    exact mem_dedupFirst.mp hw0
  · intro h
    have h1 : w ∈ dedupFirst tokens := mem_dedupFirst.mpr h
    have h2 : (w, countOcc w tokens) ∈ counter tokens := List.mem_map_of_mem _ h1
    exact List.mem_map_of_mem _ (mem_sortDescBy.mpr h2)

theorem nodup_buildVocab {α : Type} [DecidableEq α] (tokens : List α) :
    (buildVocab tokens).Nodup := by
  unfold buildVocab
  have hperm : List.Perm
      ((sortDescBy (fun e : α × Nat => e.2) (counter tokens)).map (fun e => e.1))
      ((counter tokens).map (fun e => e.1)) :=
    (perm_sortWith _ _).map _
  have hkeys : (counter tokens).map (fun e => e.1) = dedupFirst tokens := by
    unfold counter
    rw [List.map_map]
    exact List.map_id _
  refine hperm.nodup_iff.mpr ?_
  rw [hkeys]
  exact nodup_dedupFirstAux tokens []

/-- C6, amended: for both builders the ids are dense — positions of a
duplicate-free vocabulary list — and for the incremental builder
(`Counter.most_common`) the id order is non-increasing in global
frequency, so id 0 names a maximally frequent word.
`SteganographyLLM.train`, however, orders its vocabulary
alphabetically, so there the frequency ordering does **not** hold (see
the counterexample); only density does. -/
theorem claim6_vocab_density (tokens : List (List Char)) (corpus : List Char) :
    (buildVocab tokens).Nodup ∧
    (∀ i j : Nat, i ≤ j → j < (buildVocab tokens).length →
      countOcc ((buildVocab tokens).getD j []) tokens ≤
        countOcc ((buildVocab tokens).getD i []) tokens) ∧
    (backupTrainVocab corpus).Nodup := by
  refine ⟨nodup_buildVocab tokens, ?_, ?_⟩
  · intro i j hij hj
    have hlenv : (buildVocab tokens).length =
        (sortDescBy (fun e : List Char × Nat => e.2) (counter tokens)).length := by
      unfold buildVocab
      rw [List.length_map]
    have hj2 : j < (sortDescBy (fun e : List Char × Nat => e.2) (counter tokens)).length := by
      rw [← hlenv]
      exact hj
    have hi2 : i < (sortDescBy (fun e : List Char × Nat => e.2) (counter tokens)).length :=
      lt_of_le_of_lt hij hj2
    have hgetD : ∀ (k : Nat) (hk : k <
        (sortDescBy (fun e : List Char × Nat => e.2) (counter tokens)).length),
        (buildVocab tokens).getD k [] =
          ((sortDescBy (fun e : List Char × Nat => e.2) (counter tokens)).get ⟨k, hk⟩).1 := by
      intro k hk
      unfold buildVocab
      rw [List.getD_eq_getElem?_getD, List.getElem?_eq_getElem (by simpa using hk)]
      simp
    have hcount : ∀ (k : Nat) (hk : k <
        (sortDescBy (fun e : List Char × Nat => e.2) (counter tokens)).length),
        countOcc ((buildVocab tokens).getD k []) tokens =
          ((sortDescBy (fun e : List Char × Nat => e.2) (counter tokens)).get ⟨k, hk⟩).2 := by
      intro k hk
      rw [hgetD k hk]
      have hmem : (sortDescBy (fun e : List Char × Nat => e.2) (counter tokens)).get ⟨k, hk⟩
          ∈ counter tokens :=
        mem_sortDescBy.mp (List.get_mem _ k hk)
      exact (counter_count hmem).symm
    rw [hcount i hi2, hcount j hj2]
    rcases Nat.lt_or_ge i j with hlt | hge
    · have hpw := pairwise_sortDescBy (fun e : List Char × Nat => e.2) (counter tokens)
      have := List.pairwise_iff_getElem.mp hpw i j hi2 hj2 hlt
      simpa [List.get_eq_getElem] using this
    · have heq : i = j := le_antisymm hij hge
      subst heq
      exact le_refl _
  · unfold backupTrainVocab
    refine (perm_sortWith lexLe _).nodup_iff.mpr ?_
    exact nodup_dedupFirstAux _ []

/-- C6 as stated is false for `SteganographyLLM.train`: on the corpus
`"b b a"` its alphabetical vocabulary gives id 0 to `a` (frequency 1)
although `b` (id 1) has frequency 2. -/
theorem claim6_counterexample :
    countOcc ((backupTrainVocab "b b a".data).getD 0 []) (preprocessTokens "b b a".data) <
      countOcc ((backupTrainVocab "b b a".data).getD 1 []) (preprocessTokens "b b a".data) := by
  decide

theorem claim6_vocab_density_witness :
    countOcc ((buildVocab ["b".data, "b".data, "a".data]).getD 1 [])
        ["b".data, "b".data, "a".data] ≤
      countOcc ((buildVocab ["b".data, "b".data, "a".data]).getD 0 [])
        ["b".data, "b".data, "a".data] :=
  (claim6_vocab_density ["b".data, "b".data, "a".data] "b b a".data).2.1 0 1
    (by decide) (by decide)

/-! ## Id validity of the compiled artifacts (C10) -/

theorem idxOf_lt_of_mem {α : Type} [DecidableEq α] {w : α} {l : List α} (h : w ∈ l) :
    idxOf w l < l.length := by
  induction l with
  | nil => cases h
  | cons x xs ih =>
    unfold idxOf
    by_cases hx : x = w
    · rw [if_pos hx]
      simp
    · rw [if_neg hx]
      have hw : w ∈ xs := by
        rcases List.mem_cons.mp h with h2 | h2
        · exact absurd h2.symm hx
        · exact h2
      have := ih hw
      simp only [List.length_cons]
      omega

theorem mem_bumpCount {α : Type} [DecidableEq α] {P : α → Prop} {v : α}
    (hv : P v) :
    ∀ (l : List (α × Nat)), (∀ q ∈ l, P q.1) → ∀ q ∈ bumpCount v l, P q.1 := by
  intro l
  induction l with
  | nil =>
    intro hl q hq
    have : q = (v, 1) := List.mem_singleton.mp hq
    rw [this]
    exact hv
  | cons e rest ih =>
    intro hl q hq
    unfold bumpCount at hq
    by_cases he : e.1 = v
    · rw [if_pos he] at hq
      rcases List.mem_cons.mp hq with hq | hq
      · rw [hq]
        exact hl e (List.mem_cons_self e rest)
      · exact hl q (List.mem_cons_of_mem e hq)
    · rw [if_neg he] at hq
      rcases List.mem_cons.mp hq with hq | hq
      · rw [hq]
        exact hl e (List.mem_cons_self e rest)
      · exact ih (fun r hr => hl r (List.mem_cons_of_mem e hr)) q hq

theorem upsertPair_sound {α : Type} [DecidableEq α] {P1 P2 : α → Prop} {k v : α}
    (hk : P1 k) (hv : P2 v) :
    ∀ (acc : List (α × List (α × Nat))),
      (∀ e ∈ acc, P1 e.1 ∧ ∀ q ∈ e.2, P2 q.1) →
      ∀ e ∈ upsertPair k v acc, P1 e.1 ∧ ∀ q ∈ e.2, P2 q.1 := by
  intro acc
  induction acc with
  | nil =>
    intro hacc e he
    have : e = (k, [(v, 1)]) := List.mem_singleton.mp he
    rw [this]
    refine ⟨hk, ?_⟩
    intro q hq
    rw [List.mem_singleton.mp hq]
    exact hv
  | cons e1 rest ih =>
    intro hacc e he
    unfold upsertPair at he
    by_cases h1 : e1.1 = k
    · rw [if_pos h1] at he
      rcases List.mem_cons.mp he with he | he
      · rw [he]
        have h2 := hacc e1 (List.mem_cons_self e1 rest)
        exact ⟨h2.1, mem_bumpCount hv e1.2 h2.2⟩
      · exact hacc e (List.mem_cons_of_mem e1 he)
    · rw [if_neg h1] at he
      rcases List.mem_cons.mp he with he | he
      · rw [he]
        exact hacc e1 (List.mem_cons_self e1 rest)
      · exact ih (fun r hr => hacc r (List.mem_cons_of_mem e1 hr)) e he

theorem rawBigrams_sound {α : Type} [DecidableEq α] {P1 P2 : α → Prop}
    (prs : List (α × α)) (hprs : ∀ pr ∈ prs, P1 pr.1 ∧ P2 pr.2) :
    ∀ e ∈ rawBigramsOf prs, P1 e.1 ∧ ∀ q ∈ e.2, P2 q.1 := by
  unfold rawBigramsOf
  suffices h : ∀ (l : List (α × α)) (acc : List (α × List (α × Nat))),
      (∀ pr ∈ l, P1 pr.1 ∧ P2 pr.2) →
      (∀ e ∈ acc, P1 e.1 ∧ ∀ q ∈ e.2, P2 q.1) →
      ∀ e ∈ l.foldl (fun acc q => upsertPair q.1 q.2 acc) acc,
        P1 e.1 ∧ ∀ q ∈ e.2, P2 q.1 by
    exact h prs [] hprs (by intro e he; cases he)
  intro l
  induction l with
  | nil =>
    intro acc hl hacc
    exact hacc
  | cons pr rest ih =>
    intro acc hl hacc
    rw [List.foldl_cons]
    refine ih _ (fun r hr => hl r (List.mem_cons_of_mem pr hr)) ?_
    have hpr := hl pr (List.mem_cons_self pr rest)
    exact upsertPair_sound hpr.1 hpr.2 acc hacc

theorem upsertTri_sound {α : Type} [DecidableEq α] {P1 P2 P3 : α → Prop}
    {k1 k2 k3 : α} (h1 : P1 k1) (h2 : P2 k2) (h3 : P3 k3) :
    ∀ (acc : List (α × List (α × List (α × Nat)))),
      (∀ e ∈ acc, P1 e.1 ∧ ∀ f ∈ e.2, P2 f.1 ∧ ∀ q ∈ f.2, P3 q.1) →
      ∀ e ∈ upsertTri k1 k2 k3 acc,
        P1 e.1 ∧ ∀ f ∈ e.2, P2 f.1 ∧ ∀ q ∈ f.2, P3 q.1 := by
  intro acc
  induction acc with
  | nil =>
    intro hacc e he
    have : e = (k1, [(k2, [(k3, 1)])]) := List.mem_singleton.mp he
    rw [this]
    refine ⟨h1, ?_⟩
    intro f hf
    rw [List.mem_singleton.mp hf]
    refine ⟨h2, ?_⟩
    intro q hq
    rw [List.mem_singleton.mp hq]
    exact h3
  | cons e1 rest ih =>
    intro hacc e he
    unfold upsertTri at he
    by_cases hk : e1.1 = k1
    · rw [if_pos hk] at he
      rcases List.mem_cons.mp he with he | he
      · rw [he]
        have h4 := hacc e1 (List.mem_cons_self e1 rest)
        exact ⟨h4.1, upsertPair_sound h2 h3 e1.2 h4.2⟩
      · exact hacc e (List.mem_cons_of_mem e1 he)
    · rw [if_neg hk] at he
      rcases List.mem_cons.mp he with he | he
      · rw [he]
        exact hacc e1 (List.mem_cons_self e1 rest)
      · exact ih (fun r hr => hacc r (List.mem_cons_of_mem e1 hr)) e he

theorem rawTrigrams_sound {α : Type} [DecidableEq α] {P1 P2 P3 : α → Prop}
    (trs : List (α × α × α)) (htrs : ∀ t ∈ trs, P1 t.1 ∧ P2 t.2.1 ∧ P3 t.2.2) :
    ∀ e ∈ rawTrigramsOf trs, P1 e.1 ∧ ∀ f ∈ e.2, P2 f.1 ∧ ∀ q ∈ f.2, P3 q.1 := by
  unfold rawTrigramsOf
  suffices h : ∀ (l : List (α × α × α)) (acc : List (α × List (α × List (α × Nat)))),
      (∀ t ∈ l, P1 t.1 ∧ P2 t.2.1 ∧ P3 t.2.2) →
      (∀ e ∈ acc, P1 e.1 ∧ ∀ f ∈ e.2, P2 f.1 ∧ ∀ q ∈ f.2, P3 q.1) →
      ∀ e ∈ l.foldl (fun acc t => upsertTri t.1 t.2.1 t.2.2 acc) acc,
        P1 e.1 ∧ ∀ f ∈ e.2, P2 f.1 ∧ ∀ q ∈ f.2, P3 q.1 by
    exact h trs [] htrs (by intro e he; cases he)
  intro l
  induction l with
  | nil =>
    intro acc hl hacc
    exact hacc
  | cons t rest ih =>
    intro acc hl hacc
    rw [List.foldl_cons]
    refine ih _ (fun r hr => hl r (List.mem_cons_of_mem t hr)) ?_
    have ht := hl t (List.mem_cons_self t rest)
    exact upsertTri_sound ht.1 ht.2.1 ht.2.2 acc hacc

theorem compactContext_ids {itw : Nat → List Char} {K mf : Nat} {qs : List (Nat × Nat)} :
    ∀ g ∈ compactContext itw K mf qs, ∀ i ∈ g.2, ∃ q ∈ qs, q.1 = i := by
  intro g hg i hi
  unfold compactContext at hg
  rcases List.mem_map.mp hg with ⟨g0, hg0, geq⟩
  rw [← geq] at hi
  rcases List.mem_map.mp hi with ⟨q, hq, qeq⟩
  have h := (bucketPairs_sound itw K mf qs g0 hg0).2.1 q hq
  exact ⟨q, h.2.2, qeq⟩

/-- Every word occurring in an emitted 2-window of the (filtered)
chunked stream is a corpus token. -/
theorem chunkPairs_tokens {α : Type} (chunks : List (List α)) :
    ∀ pr ∈ chunkPairs (none : Option α) chunks, pr.1 ∈ chunks.flatten ∧ pr.2 ∈ chunks.flatten := by
  intro pr hpr
  have hperm := chunkPairs_perm (none : Option α) chunks
  have hpr2 : pr ∈ pairs chunks.flatten := by
    have := hperm.mem_iff.mp hpr
    simpa [optList] using this
  rcases pr with ⟨x, y⟩
  exact fst_mem_of_mem_pairs hpr2

/-- C10: every context id and candidate id in the compiled bigram and
trigram tables is a valid index into the shared vocabulary. -/
theorem claim10_ids_valid (chunks : List (List (List Char))) (valid : List Char → Bool) :
    (∀ e ∈ buildBigramTable chunks valid,
        e.1 < (buildVocab (validChunks chunks valid).flatten).length ∧
        ∀ g ∈ e.2, ∀ i ∈ g.2, i < (buildVocab (validChunks chunks valid).flatten).length) ∧
    (∀ e1 ∈ buildTrigramTable chunks valid (buildVocab (validChunks chunks valid).flatten),
        e1.1 < (buildVocab (validChunks chunks valid).flatten).length ∧
        ∀ e2 ∈ e1.2,
          e2.1 < (buildVocab (validChunks chunks valid).flatten).length ∧
          ∀ g ∈ e2.2, ∀ i ∈ g.2,
            i < (buildVocab (validChunks chunks valid).flatten).length) := by
  constructor
  · intro e he
    rcases List.mem_filterMap.mp he with ⟨e0, he0, hfe⟩
    by_cases hemp : (compactContext
        (fun i => (buildVocab (validChunks chunks valid).flatten).getD i [])
        TOP_K_PER_LETTER MIN_BIGRAM_FREQ e0.2).isEmpty = true
    · rw [if_pos hemp] at hfe
      cases hfe
    · rw [if_neg hemp] at hfe
      have heq := Option.some_injective _ hfe
      rcases List.mem_map.mp he0 with ⟨e1, he1, e0eq⟩
      have hraw := @rawBigrams_sound (List Char) _
        (fun w => w ∈ (validChunks chunks valid).flatten)
        (fun w => w ∈ (validChunks chunks valid).flatten)
        (chunkPairs none (validChunks chunks valid))
        (chunkPairs_tokens (validChunks chunks valid)) e1 he1
      constructor
      · rw [← heq, ← e0eq]
        exact idxOf_lt_of_mem (mem_buildVocab.mpr hraw.1)
      · intro g hg i hi
        have hg2 : g ∈ compactContext
            (fun i => (buildVocab (validChunks chunks valid).flatten).getD i [])
            TOP_K_PER_LETTER MIN_BIGRAM_FREQ e0.2 := by
          rw [← heq] at hg
          exact hg
        rcases compactContext_ids g hg2 i hi with ⟨q, hq, qeq⟩
        rw [← e0eq] at hq
        rcases List.mem_map.mp hq with ⟨q1, hq1, q1eq⟩
        have hmem := (hraw.2 q1 hq1)
        rw [← qeq, ← q1eq]
        exact idxOf_lt_of_mem (mem_buildVocab.mpr hmem)
  · intro e1 he1
    rcases List.mem_filterMap.mp he1 with ⟨t1, ht1, hf1⟩
    by_cases hemp1 : (t1.2.filterMap (fun e2 =>
        let g := compactContext
          (fun i => (buildVocab (validChunks chunks valid).flatten).getD i [])
          TOP_K_PER_LETTER_TRIGRAM MIN_TRIGRAM_FREQ e2.2
        if g.isEmpty then none else some (e2.1, g))).isEmpty = true
    · rw [if_pos hemp1] at hf1
      cases hf1
    · rw [if_neg hemp1] at hf1
      have he1eq := Option.some_injective _ hf1
      rcases List.mem_filterMap.mp ht1 with ⟨r1, hr1, hfr1⟩
      by_cases hv1 : r1.1 ∈ buildVocab (validChunks chunks valid).flatten
      · rw [if_pos hv1] at hfr1
        have ht1eq := Option.some_injective _ hfr1
        constructor
        · rw [← he1eq, ← ht1eq]
          exact idxOf_lt_of_mem hv1
        · intro e2 he2
          rw [← he1eq] at he2
          rcases List.mem_filterMap.mp he2 with ⟨t2, ht2, hf2⟩
          by_cases hemp2 : (compactContext
              (fun i => (buildVocab (validChunks chunks valid).flatten).getD i [])
              TOP_K_PER_LETTER_TRIGRAM MIN_TRIGRAM_FREQ t2.2).isEmpty = true
          · rw [if_pos hemp2] at hf2
            cases hf2
          · rw [if_neg hemp2] at hf2
            have he2eq := Option.some_injective _ hf2
            rw [← ht1eq] at ht2
            rcases List.mem_filterMap.mp ht2 with ⟨r2, hr2, hfr2⟩
            by_cases hv2 : r2.1 ∈ buildVocab (validChunks chunks valid).flatten
            · rw [if_pos hv2] at hfr2
              have ht2eq := Option.some_injective _ hfr2
              constructor
              · rw [← he2eq, ← ht2eq]
                exact idxOf_lt_of_mem hv2
              · intro g hg i hi
                have hg2 : g ∈ compactContext
                    (fun i => (buildVocab (validChunks chunks valid).flatten).getD i [])
                    TOP_K_PER_LETTER_TRIGRAM MIN_TRIGRAM_FREQ t2.2 := by
                  rw [← he2eq] at hg
                  exact hg
                rcases compactContext_ids g hg2 i hi with ⟨q, hq, qeq⟩
                rw [← ht2eq] at hq
                rcases List.mem_filterMap.mp hq with ⟨r3, hr3, hfr3⟩
                by_cases hv3 : r3.1 ∈ buildVocab (validChunks chunks valid).flatten
                · rw [if_pos hv3] at hfr3
                  have hqeq := Option.some_injective _ hfr3
                  rw [← qeq, ← hqeq]
                  exact idxOf_lt_of_mem hv3
                · rw [if_neg hv3] at hfr3
                  cases hfr3
            · rw [if_neg hv2] at hfr2
              cases hfr2
      · rw [if_neg hv1] at hfr1
        cases hfr1

/-- The corpus `aa ab aa ab aa` in a single chunk, for the id-validity
witness. -/
def cexChunks10 : List (List (List Char)) :=
  [["aa".data, "ab".data, "aa".data, "ab".data, "aa".data]]

theorem claim10_ids_valid_witness :
    (0 : Nat) < (buildVocab (validChunks cexChunks10 (fun _ => true)).flatten).length :=
  ((claim10_ids_valid cexChunks10 (fun _ => true)).1 (0, [('a', [1])]) (by decide)).1

end StegSpec
